import Mathlib

/-
Verification development for the tjsdoc-docs-common core: a shallow
embedding of the multi-pass symbol-graph resolver (CoreDocResolver), the
annotation param parser (AbstractParamParser), the comment tokenizer
(AbstractCommentParser) and the tag lookup of DocBase, together with
theorems settling the frozen claims about them.

Modelling conventions:
- A DocDB / symbol store is a `List Doc` in insertion order.  The DocDB
  itself is an external collaborator of this repository (a TaffyDB
  wrapper); its `find` / `findByName` / `query(...).update/remove`
  operations are modelled from the spec, section 4.4: each `find`
  argument is a field-to-value map whose fields are AND-ed, several
  arguments are OR-ed, a list value means set membership, `[0]` on a
  result takes the first match in insertion order.  Each call site in
  the resolver is translated to the corresponding `List` filter.
- JavaScript objects are mutable references; a mutation through a
  reference obtained from `findByName(...)[0]` is modelled by updating
  the first record with that longname, and a mutation through the loop
  variable of a snapshot (`for (const doc of docs)`) is modelled by
  updating the record with that doc's `___id` (ids are unique by store
  invariant).
- A JavaScript field that can be `undefined` is an `Option`; an absent
  array field is `none` (an empty array is `some []`, which is truthy).
- A thrown TypeError is `Except.error JsErr.typeError`; the unbounded
  `do/while` ancestor walk takes fuel, and running out of fuel is
  `Except.error JsErr.fuelOut`, marking divergence.
-/

/-- Error outcomes of running resolver code: a thrown JavaScript
TypeError, a SyntaxError thrown by `new RegExp` on a malformed pattern
(`regexError`), or exhaustion of the fuel that bounds the ancestor walk
(the walk diverges). -/
inductive JsErr where
  | typeError : JsErr
  | regexError : JsErr
  | fuelOut : JsErr
deriving Repr, DecidableEq

/-- One DocObject record of the store.  Fields are those read or written
by the resolver passes under verification; `id` is TaffyDB's `___id`,
`export_` and `extends_` stand for the JS fields `export` and `extends`
(Lean keywords), `implements_` for `implements` (kept symmetric). -/
structure Doc where
  id : Nat
  kind : String
  qualifier : Option String
  name : String
  longname : String
  memberof : String
  filePath : String
  access : Option String
  export_ : Bool
  ignore : Bool
  undocument : Bool
  extends_ : Option (List String)
  implements_ : Option (List String)
  description : String
  testTargets : Option (List String)
  _custom_direct_subclasses : Option (List String)
  _custom_indirect_subclasses : Option (List String)
  _custom_direct_implemented : Option (List String)
  _custom_indirect_implemented : Option (List String)
  _custom_indirect_implements : Option (List String)
  _custom_extends_chains : Option (List (Option String))
  _custom_dependent_file_paths : Option (List String)
  _custom_tests : Option (List String)
  _custom_test_targets : Option (List (String × String))
  testFullDescription : Option String
deriving Repr, DecidableEq

/-- A bare doc record with the given id, kind, longname and filePath and
every other field absent / empty / false. -/
def mkDoc (i : Nat) (k ln fp : String) : Doc :=
  ⟨i, k, none, "", ln, "", fp, none, false, false, false, none, none, "",
   none, none, none, none, none, none, none, none, none, none, none⟩

/-- The subset of TJSDocConfig consumed by CoreDocResolver.resolve. -/
structure Config where
  removeCommonPath : Bool
  access : Option (List String)
  autoPrivate : Bool
  unexportIdentifier : Bool
  undocumentIdentifier : Bool
deriving Repr, DecidableEq

/-- DocDB.findByName: first record whose `longname` equals `l`
(insertion order), as `docDB.findByName(l)[0]`. -/
def findByName (st : List Doc) (l : String) : Option Doc :=
  st.find? (fun d => d.longname == l)

/-- findByName applied to a value that may be JS `undefined`; looking up
`undefined` finds nothing (no record has an undefined longname). -/
def findByNameOpt (st : List Doc) (l : Option String) : Option Doc :=
  match l with
  | none => none
  | some s => findByName st s

/-- The record with the given `___id` (first match; ids are unique by
store invariant). -/
def getById (st : List Doc) (i : Nat) : Option Doc :=
  st.find? (fun d => d.id == i)

/-- Mutation through an object reference: update the first record
satisfying `p` (the record `find(...)[0]` returned). -/
def modifyFirstWhere (p : Doc → Bool) (f : Doc → Doc) : List Doc → List Doc
  | [] => []
  | d :: ds => if p d then f d :: ds else d :: modifyFirstWhere p f ds

/-- Mutation through a doc reference identified by its unique `___id`. -/
def modifyById (st : List Doc) (i : Nat) (f : Doc → Doc) : List Doc :=
  modifyFirstWhere (fun d => d.id == i) f st

/-- `docDB.query({...}).update(fn)` where `fn` may read the current
store: snapshot the matching ids, then apply `f` to each record in
order, each application seeing the store as left by the previous one. -/
def updateByIds (f : List Doc → Doc → Doc) (ids : List Nat) (st : List Doc) : List Doc :=
  ids.foldl (fun st i => modifyById st i (f st)) st

section Duplication

/-- Membership test of `_resolveDuplication`'s snapshot query
`find({ kind: ['ClassMember', 'ClassProperty'] })`. -/
def isMemberPropDoc (d : Doc) : Bool :=
  d.kind == "ClassMember" || d.kind == "ClassProperty"

/-- `docDB.find({ longname: doc.longname, kind: 'ClassMethod',
qualifier: ['get', 'method', 'set'] }).length` as a Bool: the doc has a
getter/setter/method duplicate. -/
def methodQualifierDup (st : List Doc) (d : Doc) : Bool :=
  !(st.filter (fun m => m.longname == d.longname && m.kind == "ClassMethod" &&
      (m.qualifier == some "get" || m.qualifier == some "method" ||
       m.qualifier == some "set"))).isEmpty

/-- `docDB.find({ longname: doc.longname, kind: ['ClassMember',
'ClassProperty'] })`: the member/property records sharing `d`'s
longname. -/
def dupGroup (st : List Doc) (d : Doc) : List Doc :=
  st.filter (fun e => e.longname == d.longname && isMemberPropDoc e)

/-- The `___id`s one iteration of `_resolveDuplication`'s loop pushes
onto `ignoreId` for the member/property doc `d`: the doc's own id when a
getter/setter/method shares its longname, otherwise — when the
member/property duplicate group has more than one record — the group's
ids sorted ascending with the first (lowest) removed, as
`ids.sort((a, b) => a < b ? -1 : 1); ids.shift()`. -/
def flagsForDoc (st : List Doc) (d : Doc) : List Nat :=
  if methodQualifierDup st d then [d.id]
  else
    let dup := dupGroup st d
    if dup.length > 1 then (List.insertionSort (· ≤ ·) (dup.map (·.id))).tail
    else []

/-- CoreDocResolver._resolveDuplication: collect `ignoreId` over the
member/property snapshot, then
`docDB.query({ ___id: ignoreId }).update(function() { this.ignore = true ... })`. -/
def _resolveDuplication (st : List Doc) : List Doc :=
  let ignoreId := ((st.filter isMemberPropDoc).map (flagsForDoc st)).flatten
  st.map (fun d => if ignoreId.contains d.id then { d with ignore := true } else d)

end Duplication

section DuplicationLemmas

lemma one_lt_length_of_mem_ne {α : Type} {l : List α} {a b : α}
    (ha : a ∈ l) (hb : b ∈ l) (hne : a ≠ b) : 1 < l.length := by
  induction l with
  | nil => cases ha
  | cons c cs ih =>
    rcases List.mem_cons.mp ha with rfl | ha'
    · rcases List.mem_cons.mp hb with rfl | hb'
      · exact absurd rfl hne
      · have : 0 < cs.length := List.length_pos.mpr (List.ne_nil_of_mem hb')
        simpa using Nat.succ_lt_succ this
    · have : 0 < cs.length := List.length_pos.mpr (List.ne_nil_of_mem ha')
      simpa using Nat.succ_lt_succ this

lemma mem_tail_insertionSort {l : List Nat} (hnd : l.Nodup) (x : Nat) :
    x ∈ (List.insertionSort (· ≤ ·) l).tail ↔ x ∈ l ∧ ∃ y ∈ l, y < x := by
  have hp : List.Perm (List.insertionSort (· ≤ ·) l) l := List.perm_insertionSort _ l
  have hs : List.Sorted (· ≤ ·) (List.insertionSort (· ≤ ·) l) :=
    List.sorted_insertionSort _ l
  have hnds : (List.insertionSort (· ≤ ·) l).Nodup := hp.nodup_iff.mpr hnd
  rcases hE : List.insertionSort (· ≤ ·) l with _ | ⟨h, t⟩
  · rw [hE] at hp
    constructor
    · intro hx; cases hx
    · rintro ⟨hx, -⟩
      exact absurd (hp.mem_iff.mpr hx) (by simp)
  · rw [hE] at hp hs hnds
    have hle : ∀ b ∈ t, h ≤ b := (List.sorted_cons.mp hs).1
    have hnotin : h ∉ t := (List.nodup_cons.mp hnds).1
    constructor
    · intro hx
      refine ⟨hp.mem_iff.mp (List.mem_cons_of_mem _ hx), h, hp.mem_iff.mp (List.mem_cons_self _ _), ?_⟩
      exact Nat.lt_of_le_of_ne (hle x hx) (fun he => hnotin (he ▸ hx))
    · rintro ⟨hxl, y, hyl, hyx⟩
      have hx' : x ∈ h :: t := hp.mem_iff.mpr hxl
      rcases List.mem_cons.mp hx' with rfl | hxt
      · exfalso
        rcases List.mem_cons.mp (hp.mem_iff.mpr hyl) with rfl | hyt
        · exact Nat.lt_irrefl _ hyx
        · exact Nat.not_lt.mpr (hle y hyt) hyx
      · exact hxt

lemma flagsForDoc_sourced {st : List Doc} {e : Doc} {x : Nat}
    (hx : x ∈ flagsForDoc st e) (hmem : isMemberPropDoc e = true) (he : e ∈ st) :
    ∃ e' ∈ st, isMemberPropDoc e' = true ∧ e'.id = x := by
  unfold flagsForDoc at hx
  by_cases hmd : methodQualifierDup st e = true
  · rw [if_pos hmd] at hx
    have : x = e.id := List.mem_singleton.mp hx
    exact ⟨e, he, hmem, this.symm⟩
  · rw [if_neg hmd] at hx
    by_cases hlen : (dupGroup st e).length > 1
    · rw [if_pos hlen] at hx
      have hx' : x ∈ List.insertionSort (· ≤ ·) ((dupGroup st e).map (·.id)) :=
        List.mem_of_mem_tail hx
      have hx'' : x ∈ (dupGroup st e).map (·.id) :=
        (List.perm_insertionSort _ _).mem_iff.mp hx'
      rcases List.mem_map.mp hx'' with ⟨e', he', rfl⟩
      have := List.mem_filter.mp he'
      exact ⟨e', this.1, (Bool.and_elim_right this.2 : isMemberPropDoc e' = true), rfl⟩
    · rw [if_neg hlen] at hx
      cases hx

lemma dupGroup_congr {st : List Doc} {a b : Doc} (h : a.longname = b.longname) :
    dupGroup st a = dupGroup st b := by
  unfold dupGroup
  simp [h]

/-- Claim C4: among member/property records sharing a longname, a
getter/setter/method of the same longname always wins — every plain
member/property record with that longname is flagged for removal while
the method record is untouched; among remaining same-longname
member/property duplicates, the record with the lowest id is kept
unchanged and every other one is flagged. -/
theorem claim_C4_duplication (S : List Doc) (hid : (S.map Doc.id).Nodup) :
    (∀ d ∈ S, isMemberPropDoc d = true → methodQualifierDup S d = true →
        { d with ignore := true } ∈ _resolveDuplication S) ∧
    (∀ m ∈ S, m.kind = "ClassMethod" → m ∈ _resolveDuplication S) ∧
    (∀ d ∈ S, isMemberPropDoc d = true → methodQualifierDup S d = false →
        (∀ e ∈ dupGroup S d, d.id ≤ e.id) → d ∈ _resolveDuplication S) ∧
    (∀ d ∈ S, isMemberPropDoc d = true → methodQualifierDup S d = false →
        (∃ e ∈ dupGroup S d, e.id < d.id) →
        { d with ignore := true } ∈ _resolveDuplication S) := by
  have hinj : ∀ a ∈ S, ∀ b ∈ S, a.id = b.id → a = b := by
    intro a ha b hb hab
    exact List.inj_on_of_nodup_map hid ha hb hab
  have hform : _resolveDuplication S = S.map
      (fun d => if (((S.filter isMemberPropDoc).map (flagsForDoc S)).flatten).contains d.id
                then { d with ignore := true } else d) := rfl
  have hflag : ∀ d ∈ S,
      (((S.filter isMemberPropDoc).map (flagsForDoc S)).flatten.contains d.id = true →
        { d with ignore := true } ∈ _resolveDuplication S) ∧
      (((S.filter isMemberPropDoc).map (flagsForDoc S)).flatten.contains d.id = false →
        d ∈ _resolveDuplication S) := by
    intro d hd
    constructor
    · intro hc
      rw [hform]
      refine List.mem_map.mpr ⟨d, hd, ?_⟩
      beta_reduce
      exact if_pos hc
    · intro hc
      rw [hform]
      refine List.mem_map.mpr ⟨d, hd, ?_⟩
      beta_reduce
      exact if_neg (by rw [hc]; exact Bool.false_ne_true)
  refine ⟨?_, ?_, ?_, ?_⟩
  · -- a member/property duplicated by a method/getter/setter is flagged
    intro d hd hmp hmd
    refine (hflag d hd).1 ?_
    have hdf : d ∈ S.filter isMemberPropDoc := List.mem_filter.mpr ⟨hd, hmp⟩
    have h1 : d.id ∈ flagsForDoc S d := by
      unfold flagsForDoc
      rw [if_pos hmd]
      exact List.mem_singleton.mpr rfl
    have : d.id ∈ ((S.filter isMemberPropDoc).map (flagsForDoc S)).flatten :=
      List.mem_flatten.mpr ⟨flagsForDoc S d, List.mem_map_of_mem _ hdf, h1⟩
    simpa using this
  · -- a ClassMethod record is never flagged: it survives unchanged
    intro m hm hk
    refine (hflag m hm).2 ?_
    by_contra hc
    have hc' : m.id ∈ ((S.filter isMemberPropDoc).map (flagsForDoc S)).flatten := by
      have := Bool.not_eq_false _ |>.mp hc
      simpa using this
    rcases List.mem_flatten.mp hc' with ⟨fl, hfl, hmid⟩
    rcases List.mem_map.mp hfl with ⟨e, hef, rfl⟩
    have hef' := List.mem_filter.mp hef
    rcases flagsForDoc_sourced hmid hef'.2 hef'.1 with ⟨e', he', hmp', hid'⟩
    have : e' = m := hinj e' he' m hm hid'
    rw [this] at hmp'
    unfold isMemberPropDoc at hmp'
    rw [hk] at hmp'
    simp at hmp'
  · -- the lowest-id member/property of a duplicate group is kept unchanged
    intro d hd hmp hmd hmin
    refine (hflag d hd).2 ?_
    by_contra hc
    have hc' : d.id ∈ ((S.filter isMemberPropDoc).map (flagsForDoc S)).flatten := by
      have := Bool.not_eq_false _ |>.mp hc
      simpa using this
    rcases List.mem_flatten.mp hc' with ⟨fl, hfl, hdid⟩
    rcases List.mem_map.mp hfl with ⟨e, hef, rfl⟩
    have hef' := List.mem_filter.mp hef
    unfold flagsForDoc at hdid
    by_cases hmde : methodQualifierDup S e = true
    · rw [if_pos hmde] at hdid
      -- then e = d, contradicting that d has no method duplicate
      have heq : d.id = e.id := List.mem_singleton.mp hdid
      have : e = d := hinj e hef'.1 d hd heq.symm
      rw [this] at hmde
      rw [hmde] at hmd
      cases hmd
    · rw [if_neg hmde] at hdid
      by_cases hlen : (dupGroup S e).length > 1
      · rw [if_pos hlen] at hdid
        have hsub : (dupGroup S e).Sublist S := List.filter_sublist S
        have hndg : ((dupGroup S e).map (·.id)).Nodup :=
          List.Nodup.sublist (List.Sublist.map _ hsub) hid
        rcases (mem_tail_insertionSort hndg d.id).mp hdid with ⟨hmemids, y, hyids, hylt⟩
        rcases List.mem_map.mp hmemids with ⟨d', hd', hd'id⟩
        have hd'S : d' ∈ S := (List.mem_filter.mp hd').1
        have : d' = d := hinj d' hd'S d hd hd'id
        rw [this] at hd'
        have hdlong : d.longname = e.longname := by
          have := (List.mem_filter.mp hd').2
          have h1 : (d.longname == e.longname) = true := Bool.and_elim_left this
          exact eq_of_beq h1
        rcases List.mem_map.mp hyids with ⟨ey, hey, heyid⟩
        have hey' : ey ∈ dupGroup S d := by
          rw [dupGroup_congr hdlong]
          exact hey
        have := hmin ey hey'
        rw [heyid] at this
        exact Nat.not_lt.mpr this hylt
      · rw [if_neg hlen] at hdid
        cases hdid
  · -- every non-lowest member/property duplicate is flagged
    intro d hd hmp hmd hlow
    refine (hflag d hd).1 ?_
    rcases hlow with ⟨e, he, helt⟩
    have hdg : d ∈ dupGroup S d := by
      unfold dupGroup
      refine List.mem_filter.mpr ⟨hd, ?_⟩
      simp [hmp]
    have hne : e ≠ d := fun h => Nat.lt_irrefl _ (h ▸ helt)
    have hlen : 1 < (dupGroup S d).length := one_lt_length_of_mem_ne he hdg hne
    have hsub : (dupGroup S d).Sublist S := List.filter_sublist S
    have hndg : ((dupGroup S d).map (·.id)).Nodup :=
      List.Nodup.sublist (List.Sublist.map _ hsub) hid
    have hdid : d.id ∈ flagsForDoc S d := by
      unfold flagsForDoc
      rw [if_neg (by simp [hmd]), if_pos hlen]
      refine (mem_tail_insertionSort hndg d.id).mpr ?_
      exact ⟨List.mem_map_of_mem _ hdg, e.id, List.mem_map_of_mem _ he, helt⟩
    have hdf : d ∈ S.filter isMemberPropDoc := List.mem_filter.mpr ⟨hd, hmp⟩
    have : d.id ∈ ((S.filter isMemberPropDoc).map (flagsForDoc S)).flatten :=
      List.mem_flatten.mpr ⟨flagsForDoc S d, List.mem_map_of_mem _ hdf, hdid⟩
    simpa using this

end DuplicationLemmas

/-- Concrete store for exercising duplicate elimination: a method and a
plain member at longname `X.y`, and two plain members at `X.z` with ids
5 and 9. -/
def c4Method : Doc := { mkDoc 1 "ClassMethod" "X.y" "src/x.js" with qualifier := some "method" }

def c4Member : Doc := mkDoc 2 "ClassMember" "X.y" "src/x.js"

def c4Dup5 : Doc := mkDoc 5 "ClassMember" "X.z" "src/x.js"

def c4Dup9 : Doc := mkDoc 9 "ClassMember" "X.z" "src/x.js"

def c4Store : List Doc := [c4Method, c4Member, c4Dup5, c4Dup9]

/-- Witness for claim C4 at the concrete store: the member sharing `X.y`
with the method is flagged, the method survives untouched, and of the
`X.z` duplicates with ids 5 and 9, id 5 stays unchanged while id 9 is
flagged. -/
theorem claim_C4_duplication_witness :
    { c4Member with ignore := true } ∈ _resolveDuplication c4Store ∧
    c4Method ∈ _resolveDuplication c4Store ∧
    c4Dup5 ∈ _resolveDuplication c4Store ∧
    { c4Dup9 with ignore := true } ∈ _resolveDuplication c4Store := by
  have h := claim_C4_duplication c4Store (by decide)
  refine ⟨h.1 c4Member (by decide) (by decide) (by decide),
          h.2.1 c4Method (by decide) (by decide),
          h.2.2.1 c4Dup5 (by decide) (by decide) (by decide) (by decide),
          h.2.2.2 c4Dup9 (by decide) (by decide) (by decide) (by decide)⟩

section IgnoreCascade

/-- `\w` of JavaScript regexps: a word character (escaping one of these
is outside the modelled fragment). -/
def isRxWordChar (c : Char) : Bool := c.isAlphanum || c == '_'

/-- One item of a regexp character class: a single character or an
`a-b` range with unescaped endpoints. -/
inductive ClsItem where
  | single (c : Char)
  | range (a b : Char)

/-- AST of the modelled JavaScript regexp fragment: literal characters,
the `.` wildcard, the `^`/`$` assertions, character classes,
alternation groups and the `*`/`+`/`?` quantifiers.  Bounded
quantifiers, word escapes (`\w`, `\d`, ...), backreferences and
lookaround are outside the fragment. -/
inductive RNode where
  | lit (c : Char)
  | dot
  | startA
  | endA
  | cls (neg : Bool) (items : List ClsItem)
  | alt (alts : List (List RNode))
  | star (n : RNode)
  | plus (n : RNode)
  | opt (n : RNode)

/-- Parse the body of a character class up to the closing `]`: `a-b`
with plain endpoints is a range, a `-` before the `]` is literal, `\c`
escapes a non-word character.  `none` is the SyntaxError of an
unterminated class (or a class construct outside the fragment). -/
def parseClsItemsF : Nat → List Char → Option (List ClsItem × List Char)
  | 0, _ => none
  | _ + 1, [] => none
  | f + 1, c :: rest =>
    if c == ']' then some ([], rest)
    else if c == '\\' then
      match rest with
      | [] => none
      | e :: rest2 =>
        if isRxWordChar e then none
        else
          match parseClsItemsF f rest2 with
          | none => none
          | some (is, r) => some (.single e :: is, r)
    else
      match rest with
      | '-' :: b :: rest2 =>
        if b == ']' then some ([.single c, .single '-'], rest2)
        else if b == '\\' then none
        else
          match parseClsItemsF f rest2 with
          | none => none
          | some (is, r) => some (.range c b :: is, r)
      | _ =>
        match parseClsItemsF f rest with
        | none => none
        | some (is, r) => some (.single c :: is, r)

/-- Entry point of the class parser; the fuel `len + 1` always suffices
since every step consumes at least one character. -/
def parseClsItems (cs : List Char) : Option (List ClsItem × List Char) :=
  parseClsItemsF (cs.length + 1) cs

/-- Recursive-descent parser for the modelled regexp fragment, indexed
by fuel and a mode: mode 0 parses an alternation (returning the list of
alternatives), mode 1 a sequence, mode 2 a single atom (both returned
as a singleton alternative list), each together with the unconsumed
rest of the pattern.  `none` is a SyntaxError: an unterminated group or
class, a dangling quantifier, a trailing backslash, or a construct
outside the fragment. -/
def prx : Nat → Nat → List Char → Option (List (List RNode) × List Char)
  | 0, _, _ => none
  | f + 1, 0, s =>
    match prx f 1 s with
    | none => none
    | some (seqs, rest) =>
      match rest with
      | '|' :: rest2 =>
        match prx f 0 rest2 with
        | none => none
        | some (alts, rest3) => some (seqs.headD [] :: alts, rest3)
      | _ => some ([seqs.headD []], rest)
  | f + 1, 1, s =>
    match s with
    | [] => some ([([] : List RNode)], [])
    | c :: _ =>
      if c == ')' then some ([[]], s)
      else if c == '|' then some ([[]], s)
      else if c == '*' || c == '+' || c == '?' then none
      else
        match prx f 2 s with
        | none => none
        | some (a, rest) =>
          let node := (a.headD []).headD RNode.dot
          let qr : RNode × List Char :=
            match rest with
            | [] => (node, ([] : List Char))
            | q :: rest2 =>
              if q == '*' then (RNode.star node, rest2)
              else if q == '+' then (RNode.plus node, rest2)
              else if q == '?' then (RNode.opt node, rest2)
              else (node, q :: rest2)
          match prx f 1 qr.2 with
          | none => none
          | some (ms, rest3) => some ([qr.1 :: ms.headD []], rest3)
  | f + 1, 2, s =>
    match s with
    | [] => none
    | c :: rest =>
      if c == '(' then
        match prx f 0 rest with
        | none => none
        | some (alts, rest2) =>
          match rest2 with
          | ')' :: rest3 => some ([[RNode.alt alts]], rest3)
          | _ => none
      else if c == '[' then
        match rest with
        | '^' :: rest2 =>
          match parseClsItems rest2 with
          | none => none
          | some (items, r) => some ([[RNode.cls true items]], r)
        | _ =>
          match parseClsItems rest with
          | none => none
          | some (items, r) => some ([[RNode.cls false items]], r)
      else if c == '\\' then
        match rest with
        | [] => none
        | e :: rest2 => if isRxWordChar e then none else some ([[RNode.lit e]], rest2)
      else if c == '.' then some ([[RNode.dot]], rest)
      else if c == '^' then some ([[RNode.startA]], rest)
      else if c == '$' then some ([[RNode.endA]], rest)
      else some ([[RNode.lit c]], rest)
  | _ + 1, _, _ => none

/-- `new RegExp(pattern)`: parse the whole pattern into a node sequence
(a proper alternation becomes one `alt` node).  The fuel `3·len + 9`
always suffices: each recursion level either consumes a character or
moves alternation→sequence→atom, and every atom consumes.  `none`
models the thrown SyntaxError. -/
def compileRx (pat : List Char) : Option (List RNode) :=
  match prx (3 * pat.length + 9) 0 pat with
  | some (alts, []) =>
    match alts with
    | [a] => some a
    | _ => some [RNode.alt alts]
  | _ => none

/-- Membership of a character in one class item. -/
def clsItemMatch (c : Char) : ClsItem → Bool
  | .single a => c == a
  | .range a b => a ≤ c && c ≤ b

/-- Backtracking matcher: the list of possible rests of `s` after
matching one node (`Sum.inl`) or a node sequence (`Sum.inr`) against a
prefix of `s`; `L` is the length of the full input, so the `^`
assertion holds exactly when nothing has been consumed.  Quantifiers
are explored in both arities (the set of rests, hence `test`, does not
depend on greediness).  The fuel bounds the derivation depth; only
degenerate re-iterations of an empty star match are cut off by it,
which never changes the set of rests. -/
def rmatch : Nat → Sum RNode (List RNode) → Nat → List Char → List (List Char)
  | 0, _, _, _ => []
  | _ + 1, Sum.inl (RNode.lit c), _, s =>
    match s with
    | [] => []
    | c2 :: r => if c2 == c then [r] else []
  | _ + 1, Sum.inl RNode.dot, _, s =>
    match s with
    | [] => []
    | c2 :: r => if c2 == '\n' then [] else [r]
  | _ + 1, Sum.inl RNode.startA, L, s => if s.length == L then [s] else []
  | _ + 1, Sum.inl RNode.endA, _, s => if s.isEmpty then [s] else []
  | _ + 1, Sum.inl (RNode.cls neg items), _, s =>
    match s with
    | [] => []
    | c2 :: r => if (items.any (clsItemMatch c2)) != neg then [r] else []
  | f + 1, Sum.inl (RNode.alt alts), L, s => alts.flatMap (fun ns => rmatch f (Sum.inr ns) L s)
  | f + 1, Sum.inl (RNode.star n), L, s =>
    s :: (rmatch f (Sum.inl n) L s).flatMap (fun s2 => rmatch f (Sum.inl (RNode.star n)) L s2)
  | f + 1, Sum.inl (RNode.plus n), L, s =>
    (rmatch f (Sum.inl n) L s).flatMap (fun s2 => rmatch f (Sum.inl (RNode.star n)) L s2)
  | f + 1, Sum.inl (RNode.opt n), L, s => s :: rmatch f (Sum.inl n) L s
  | _ + 1, Sum.inr [], _, s => [s]
  | f + 1, Sum.inr (n :: ns), L, s =>
    (rmatch f (Sum.inl n) L s).flatMap (fun s2 => rmatch f (Sum.inr ns) L s2)

/-- `regex.test(s)`: try to match the node sequence at every start
position of `s` (a pattern anchored by `^` can only succeed at position
0, through the assertion). -/
def rtestF (f : Nat) (nodes : List RNode) (cl : List Char) : Bool :=
  (List.range (cl.length + 1)).any (fun p =>
    !(rmatch f (Sum.inr nodes) cl.length (cl.drop p)).isEmpty)

/-- `longname.replace(/[$]/g, '\\$')`: each `$` becomes the two
characters backslash, `$`. -/
def escDollarChars (cs : List Char) : List Char :=
  cs.flatMap (fun c => if c == '$' then ['\\', '$'] else [c])

/-- The cascade pattern `^${longname}[.~#]` built by `_resolveIgnore`
after the `$` escape. -/
def ignorePattern (longname : String) : List Char :=
  '^' :: (escDollarChars longname.data ++ ('[' :: '.' :: '~' :: '#' :: ']' :: []))

/-- Matching fuel used by the ignore pass: a simple-match derivation
never nests deeper than pattern size times candidate length. -/
def ignoreFuel (pat cand : List Char) : Nat := (pat.length + 2) * (cand.length + 2) + 2

/-- The `for (const doc of docs)` loop of `_resolveIgnore` over the
flagged snapshot: build each cascade regexp (a malformed pattern throws
a SyntaxError) and remove every doc whose longname it matches. -/
def ignoreLoop : List Doc → List Doc → Except JsErr (List Doc)
  | [], st => Except.ok st
  | fdoc :: fs, st =>
    let pat := ignorePattern fdoc.longname
    match compileRx pat with
    | none => Except.error JsErr.regexError
    | some nodes =>
      ignoreLoop fs
        (st.filter (fun d => !(rtestF (ignoreFuel pat d.longname.data) nodes d.longname.data)))

/-- CoreDocResolver._resolveIgnore: for every doc flagged `ignore`,
remove every doc whose longname matches the cascade regexp
`^${longname}[.~#]` (only `$` is escaped before `new RegExp`), then
remove every flagged doc itself. -/
def _resolveIgnore (st : List Doc) : Except JsErr (List Doc) :=
  match ignoreLoop (st.filter (fun d => d.ignore)) st with
  | Except.error e => Except.error e
  | Except.ok st1 => Except.ok (st1.filter (fun d => !d.ignore))

/-- Character-level characterization of the cascade regexp for a
longname free of active metacharacters (see `RegexLiteralName`): the
pattern chars are matched anchored at the start of the candidate, a `.`
in the longname is the regexp wildcard (any char except a newline),
every other char matches itself, and after the pattern one scope
separator `.`/`~`/`#` must follow (the rest is unconstrained).  Proved
equivalent to the compiled regexp on that domain in `rtestF_cascade`. -/
def cascadeMatchChars : List Char → List Char → Bool
  | [], [] => false
  | [], c :: _ => c == '.' || c == '~' || c == '#'
  | _ :: _, [] => false
  | p :: ps, c :: cs => (if p == '.' then c != '\n' else p == c) && cascadeMatchChars ps cs

/-- `regex.test(candidateLongname)` for the cascade regexp of a flagged
metacharacter-free longname. -/
def cascadeMatch (flag cand : String) : Bool :=
  cascadeMatchChars flag.data cand.data

/-- One of the three scope separators of a longname. -/
def ScopeSep (c : Char) : Prop := c = '.' ∨ c = '~' ∨ c = '#'

/-- `cand` is a lexical descendant of `flag`: it extends `flag` across a
scope separator, as in `Foo` / `Foo.bar` / `Foo~bar`. -/
def IsLexicalDescendant (flag cand : String) : Prop :=
  ∃ sep rest, ScopeSep sep ∧ cand.data = flag.data ++ sep :: rest

/-- A character that `_resolveIgnore`'s escaping (which only escapes
`$`) leaves without an active regexp meaning, other than `.`, whose
wildcard meaning `cascadeMatchChars` models. -/
def RegexLiteralChar (c : Char) : Prop :=
  c ∉ ['\\', '^', '+', '*', '?', '(', ')', '[', ']', '\x7b', '\x7d', '|']

/-- The longname contains no active regexp metacharacter. -/
def RegexLiteralName (s : String) : Prop :=
  ∀ c ∈ s.data, RegexLiteralChar c

instance (c : Char) : Decidable (RegexLiteralChar c) := by
  unfold RegexLiteralChar
  infer_instance

instance (s : String) : Decidable (RegexLiteralName s) := by
  unfold RegexLiteralName
  infer_instance

lemma cascadeMatchChars_append (ps : List Char) (sep : Char) (rest : List Char)
    (hsep : ScopeSep sep) : cascadeMatchChars ps (ps ++ sep :: rest) = true := by
  induction ps with
  | nil =>
    rcases hsep with rfl | rfl | rfl <;> rfl
  | cons p pt ih =>
    have hstep : cascadeMatchChars (p :: pt) (p :: (pt ++ sep :: rest)) =
        ((if p == '.' then p != '\n' else p == p) && cascadeMatchChars pt (pt ++ sep :: rest)) := rfl
    rw [List.cons_append, hstep, ih]
    by_cases hp : p = '.'
    · subst hp; decide
    · simp [hp]

lemma mem_foldl_cascade_filter (L : List Doc) (st0 : List Doc) (x : Doc)
    (h : x ∈ L.foldl (fun st f => st.filter (fun d => !(cascadeMatch f.longname d.longname))) st0) :
    x ∈ st0 ∧ ∀ f ∈ L, cascadeMatch f.longname x.longname = false := by
  induction L generalizing st0 with
  | nil => exact ⟨h, by intro f hf; cases hf⟩
  | cons f fs ih =>
    have h' := ih _ h
    have hx := List.mem_filter.mp h'.1
    refine ⟨hx.1, ?_⟩
    intro g hg
    rcases List.mem_cons.mp hg with rfl | hg'
    · simpa using hx.2
    · exact h'.2 g hg'

/-- The scope-separator class `[.~#]` as a compiled node. -/
def clsNode : RNode :=
  RNode.cls false [ClsItem.single '.', ClsItem.single '~', ClsItem.single '#']

/-- The node one metacharacter-free longname character compiles to:
`.` is the wildcard, everything else a literal. -/
def charNode (c : Char) : RNode := if c == '.' then RNode.dot else RNode.lit c

lemma prx_cls_tail (f : Nat) :
    prx (f + 2) 1 ('[' :: '.' :: '~' :: '#' :: ']' :: []) = some ([[clsNode]], []) := rfl

lemma prx_atom_caret (f : Nat) (rest : List Char) :
    prx (f + 1) 2 ('^' :: rest) = some ([[RNode.startA]], rest) := rfl

lemma prx_atom_escdollar (f : Nat) (rest : List Char) :
    prx (f + 1) 2 ('\\' :: '$' :: rest) = some ([[RNode.lit '$']], rest) := rfl

lemma prx_atom_dot (f : Nat) (rest : List Char) :
    prx (f + 1) 2 ('.' :: rest) = some ([[RNode.dot]], rest) := rfl

lemma prx_atom_plain (f : Nat) (c : Char) (rest : List Char)
    (h : RegexLiteralChar c) (hdot : c ≠ '.') (hdol : c ≠ '$') :
    prx (f + 1) 2 (c :: rest) = some ([[RNode.lit c]], rest) := by
  simp only [RegexLiteralChar, List.mem_cons, List.not_mem_nil, or_false] at h
  push_neg at h
  obtain ⟨h1, h2, h3, h4, h5, h6, h7, h8, h9, h10, h11, h12⟩ := h
  simp only [prx, beq_false_of_ne h6, beq_false_of_ne h8, beq_false_of_ne h1,
    beq_false_of_ne hdot, beq_false_of_ne h2, beq_false_of_ne hdol,
    Bool.false_eq_true, if_false]

/-- One step of the sequence parser: a parsed atom followed by no
quantifier character prepends its node to the parsed rest of the
sequence. -/
lemma prx_seq_step (g : Nat) (c0 : Char) (s' : List Char) (node : RNode)
    (rest : List Char) (ms : List RNode) (r3 : List Char)
    (h1 : (c0 == ')') = false) (h2 : (c0 == '|') = false)
    (h3 : (c0 == '*') = false) (h4 : (c0 == '+') = false) (h5 : (c0 == '?') = false)
    (hatom : prx g 2 (c0 :: s') = some ([[node]], rest))
    (hq : ∀ q t, rest = q :: t →
      (q == '*') = false ∧ (q == '+') = false ∧ (q == '?') = false)
    (hcont : prx g 1 rest = some ([ms], r3)) :
    prx (g + 1) 1 (c0 :: s') = some ([node :: ms], r3) := by
  simp only [prx, h1, h2, h3, h4, h5, Bool.false_or, if_false, hatom]
  rcases rest with _ | ⟨q, t⟩
  · simp only [hcont, Bool.false_eq_true, if_false]
    rfl
  · obtain ⟨hq1, hq2, hq3⟩ := hq q t rfl
    simp only [hq1, hq2, hq3, Bool.false_eq_true, if_false, hcont]
    rfl

lemma escTail_head_not_quant (ct : List Char) (hlit : ∀ x ∈ ct, RegexLiteralChar x) :
    ∀ q t, (escDollarChars ct ++ ('[' :: '.' :: '~' :: '#' :: ']' :: [])) = q :: t →
      (q == '*') = false ∧ (q == '+') = false ∧ (q == '?') = false := by
  intro q t heq
  rcases ct with _ | ⟨c2, ct2⟩
  · have : ('[' :: '.' :: '~' :: '#' :: ']' :: []) = q :: t := heq
    obtain ⟨h1, -⟩ := List.cons.inj this
    subst h1
    exact ⟨rfl, rfl, rfl⟩
  · have hstep : escDollarChars (c2 :: ct2) =
        (if c2 == '$' then ['\\', '$'] else [c2]) ++ escDollarChars ct2 := rfl
    by_cases hd : c2 = '$'
    · rw [hstep, if_pos (by simp [hd])] at heq
      obtain ⟨h1, -⟩ := List.cons.inj heq
      subst h1
      exact ⟨rfl, rfl, rfl⟩
    · rw [hstep, if_neg (by simp [hd])] at heq
      obtain ⟨h1, -⟩ := List.cons.inj heq
      rw [← h1]
      have hc := hlit c2 (List.mem_cons_self _ _)
      simp only [RegexLiteralChar, List.mem_cons, List.not_mem_nil, or_false] at hc
      push_neg at hc
      exact ⟨beq_false_of_ne hc.2.2.2.1, beq_false_of_ne hc.2.2.1, beq_false_of_ne hc.2.2.2.2.1⟩

/-- The sequence parser on an escaped metacharacter-free longname
followed by the class tail: one `charNode` per longname character. -/
lemma prx_seq_lit (cs : List Char) :
    ∀ f : Nat, (∀ c ∈ cs, RegexLiteralChar c) → cs.length + 2 ≤ f →
    prx f 1 (escDollarChars cs ++ ('[' :: '.' :: '~' :: '#' :: ']' :: [])) =
      some ([cs.map charNode ++ [clsNode]], []) := by
  induction cs with
  | nil =>
    intro f _ hf
    obtain ⟨g, rfl⟩ : ∃ g, f = g + 2 := ⟨f - 2, by omega⟩
    simpa [escDollarChars] using prx_cls_tail g
  | cons c ct ih =>
    intro f hlit hf
    obtain ⟨g, rfl⟩ : ∃ g, f = g + 1 := ⟨f - 1, by omega⟩
    have hg : ct.length + 2 ≤ g := by
      simp only [List.length_cons] at hf
      omega
    obtain ⟨g2, rfl⟩ : ∃ g2, g = g2 + 1 := ⟨g - 1, by omega⟩
    have hcont := ih (g2 + 1) (fun x hx => hlit x (List.mem_cons_of_mem _ hx)) hg
    have hq := escTail_head_not_quant ct (fun x hx => hlit x (List.mem_cons_of_mem _ hx))
    have hlc := hlit c (List.mem_cons_self _ _)
    have hmapc : (c :: ct).map charNode ++ [clsNode] =
        charNode c :: (ct.map charNode ++ [clsNode]) := rfl
    rw [hmapc]
    by_cases hdol : c = '$'
    · subst hdol
      have hshape : escDollarChars ('$' :: ct) ++ ('[' :: '.' :: '~' :: '#' :: ']' :: []) =
          '\\' :: '$' :: (escDollarChars ct ++ ('[' :: '.' :: '~' :: '#' :: ']' :: [])) := rfl
      rw [hshape]
      have hnode : charNode '$' = RNode.lit '$' := rfl
      rw [hnode]
      exact prx_seq_step (g2 + 1) '\\' _ (RNode.lit '$') _ _ _
        rfl rfl rfl rfl rfl (prx_atom_escdollar g2 _) hq hcont
    · have hshape : escDollarChars (c :: ct) ++ ('[' :: '.' :: '~' :: '#' :: ']' :: []) =
          c :: (escDollarChars ct ++ ('[' :: '.' :: '~' :: '#' :: ']' :: [])) := by
        have : escDollarChars (c :: ct) =
            (if c == '$' then ['\\', '$'] else [c]) ++ escDollarChars ct := rfl
        rw [this, if_neg (by simp [hdol])]
        rfl
      rw [hshape]
      have hc := hlc
      simp only [RegexLiteralChar, List.mem_cons, List.not_mem_nil, or_false] at hc
      push_neg at hc
      by_cases hdot : c = '.'
      · subst hdot
        have hnode : charNode '.' = RNode.dot := rfl
        rw [hnode]
        exact prx_seq_step (g2 + 1) '.' _ RNode.dot _ _ _
          rfl rfl rfl rfl rfl (prx_atom_dot g2 _) hq hcont
      · have hnode : charNode c = RNode.lit c := by
          unfold charNode
          rw [if_neg (by simp [hdot])]
        rw [hnode]
        exact prx_seq_step (g2 + 1) c _ (RNode.lit c) _ _ _
          (beq_false_of_ne hc.2.2.2.2.2.2.1) (beq_false_of_ne hc.2.2.2.2.2.2.2.2.2.2.2)
          (beq_false_of_ne hc.2.2.2.1) (beq_false_of_ne hc.2.2.1)
          (beq_false_of_ne hc.2.2.2.2.1)
          (prx_atom_plain g2 c _ hlc hdot hdol) hq hcont

lemma prx_alt_single (g : Nat) (s : List Char) (ns : List RNode)
    (h : prx g 1 s = some ([ns], [])) : prx (g + 1) 0 s = some ([ns], []) := by
  simp only [prx, h]
  rfl

lemma escDollarChars_length_ge (cs : List Char) :
    cs.length ≤ (escDollarChars cs).length := by
  induction cs with
  | nil => simp [escDollarChars]
  | cons c ct ih =>
    have hstep : escDollarChars (c :: ct) =
        (if c == '$' then ['\\', '$'] else [c]) ++ escDollarChars ct := rfl
    rw [hstep, List.length_append]
    by_cases h : c == '$' <;> simp [h] <;> omega

/-- A metacharacter-free longname compiles to the anchored
literal/wildcard sequence followed by the scope-separator class. -/
lemma compile_ignorePattern (L : String) (h : RegexLiteralName L) :
    compileRx (ignorePattern L) =
      some (RNode.startA :: (L.data.map charNode ++ [clsNode])) := by
  unfold compileRx ignorePattern
  have hlen := escDollarChars_length_ge L.data
  have hlen2 : ('^' :: (escDollarChars L.data ++ ('[' :: '.' :: '~' :: '#' :: ']' :: []))).length =
      (escDollarChars L.data).length + 6 := by
    simp [List.length_cons, List.length_append]
  obtain ⟨G, hG⟩ : ∃ G, 3 * ('^' :: (escDollarChars L.data ++
      ('[' :: '.' :: '~' :: '#' :: ']' :: []))).length + 9 = (G + 1) + 1 ∧
      L.data.length + 2 ≤ G := by
    refine ⟨3 * ('^' :: (escDollarChars L.data ++ ('[' :: '.' :: '~' :: '#' :: ']' :: []))).length + 7, ?_, ?_⟩
    · omega
    · rw [hlen2]; omega
  rw [hG.1]
  have hseq := prx_seq_lit L.data G (fun c hc => h c hc) hG.2
  have hq := escTail_head_not_quant L.data (fun c hc => h c hc)
  obtain ⟨G2, rfl⟩ : ∃ G2, G = G2 + 1 := ⟨G - 1, by omega⟩
  have hstep : prx (G2 + 1 + 1) 1
      ('^' :: (escDollarChars L.data ++ ('[' :: '.' :: '~' :: '#' :: ']' :: []))) =
      some ([RNode.startA :: (L.data.map charNode ++ [clsNode])], []) :=
    prx_seq_step (G2 + 1) '^' _ RNode.startA _ _ _
      rfl rfl rfl rfl rfl (prx_atom_caret G2 _) hq hseq
  rw [prx_alt_single _ _ _ hstep]

lemma rmatch_inr_cons (f : Nat) (n : RNode) (ns : List RNode) (L : Nat) (s : List Char) :
    rmatch (f + 1) (Sum.inr (n :: ns)) L s =
      (rmatch f (Sum.inl n) L s).flatMap (fun s2 => rmatch f (Sum.inr ns) L s2) := rfl

lemma rmatch_nilSeq (g L : Nat) (s : List Char) :
    rmatch (g + 1) (Sum.inr []) L s = [s] := rfl

lemma rmatch_clsNode (g L : Nat) (c : Char) (r : List Char) :
    rmatch (g + 1) (Sum.inl clsNode) L (c :: r) =
      if (c == '.' || c == '~' || c == '#') then [r] else [] := by
  have hbody : rmatch (g + 1) (Sum.inl clsNode) L (c :: r) =
      if (([ClsItem.single '.', ClsItem.single '~', ClsItem.single '#'].any (clsItemMatch c)) != false)
      then [r] else [] := rfl
  have hc : (([ClsItem.single '.', ClsItem.single '~', ClsItem.single '#'].any (clsItemMatch c)) != false) =
      (c == '.' || c == '~' || c == '#') := by
    simp [clsItemMatch, Bool.or_assoc]
  rw [hbody, hc]

lemma rmatch_litNode (g L : Nat) (c c2 : Char) (r : List Char) :
    rmatch (g + 1) (Sum.inl (RNode.lit c)) L (c2 :: r) = if c2 == c then [r] else [] := rfl

lemma rmatch_dotNode (g L : Nat) (c2 : Char) (r : List Char) :
    rmatch (g + 1) (Sum.inl RNode.dot) L (c2 :: r) = if c2 == '\n' then [] else [r] := rfl

/-- The matcher on the compiled literal/wildcard sequence is exactly the
character-level cascade characterization. -/
lemma rmatch_lit_cls (cs : List Char) :
    ∀ (f L : Nat) (s : List Char), (∀ c ∈ cs, RegexLiteralChar c) → cs.length + 2 ≤ f →
    (rmatch f (Sum.inr (cs.map charNode ++ [clsNode])) L s).isEmpty =
      !(cascadeMatchChars cs s) := by
  induction cs with
  | nil =>
    intro f L s _ hf
    obtain ⟨g, rfl⟩ : ∃ g, f = g + 2 := ⟨f - 2, by omega⟩
    simp only [List.map_nil, List.nil_append]
    rcases s with _ | ⟨c, r⟩
    · rfl
    · rw [rmatch_inr_cons (g + 1), rmatch_clsNode g]
      by_cases hm : (c == '.' || c == '~' || c == '#') = true
      · rw [if_pos hm]
        simp only [List.flatMap_cons, List.flatMap_nil, List.append_nil, rmatch_nilSeq g]
        have : cascadeMatchChars [] (c :: r) = true := hm
        rw [this]
        rfl
      · rw [if_neg hm]
        have hmf : (c == '.' || c == '~' || c == '#') = false := by
          revert hm
          cases (c == '.' || c == '~' || c == '#') <;> simp
        have : cascadeMatchChars [] (c :: r) = false := hmf
        rw [this]
        rfl
  | cons c ct ih =>
    intro f L s hlit hf
    obtain ⟨g2, rfl⟩ : ∃ g2, f = g2 + 2 := ⟨f - 2, by omega⟩
    have hg : ct.length + 2 ≤ g2 + 1 := by
      simp only [List.length_cons] at hf
      omega
    have hmapc : (c :: ct).map charNode ++ [clsNode] =
        charNode c :: (ct.map charNode ++ [clsNode]) := rfl
    rw [hmapc, rmatch_inr_cons (g2 + 1)]
    rcases s with _ | ⟨c2, r⟩
    · have hnil : rmatch (g2 + 1) (Sum.inl (charNode c)) L [] = [] := by
        by_cases hdot : c = '.'
        · subst hdot; rfl
        · have : charNode c = RNode.lit c := by
            unfold charNode
            rw [if_neg (by simp [hdot])]
          rw [this]
          rfl
      rw [hnil]
      rfl
    · by_cases hdot : c = '.'
      · subst hdot
        have hnode : charNode '.' = RNode.dot := rfl
        rw [hnode, rmatch_dotNode g2]
        by_cases hn : c2 = '\n'
        · subst hn
          simp only [beq_self_eq_true, if_true, List.flatMap_nil]
          simp [cascadeMatchChars]
        · rw [if_neg (by simp [hn])]
          simp only [List.flatMap_cons, List.flatMap_nil, List.append_nil]
          rw [ih (g2 + 1) L r (fun x hx => hlit x (List.mem_cons_of_mem _ hx)) hg]
          have : cascadeMatchChars ('.' :: ct) (c2 :: r) = cascadeMatchChars ct r := by
            simp [cascadeMatchChars, hn]
          rw [this]
      · have hnode : charNode c = RNode.lit c := by
          unfold charNode
          rw [if_neg (by simp [hdot])]
        rw [hnode, rmatch_litNode g2]
        by_cases he : c2 = c
        · rw [if_pos (by simp [he])]
          simp only [List.flatMap_cons, List.flatMap_nil, List.append_nil]
          rw [ih (g2 + 1) L r (fun x hx => hlit x (List.mem_cons_of_mem _ hx)) hg]
          have : cascadeMatchChars (c :: ct) (c2 :: r) = cascadeMatchChars ct r := by
            have hcc : (c == c2) = true := by simp [he]
            simp [cascadeMatchChars, beq_false_of_ne hdot, hcc]
          rw [this]
        · rw [if_neg (by simp [he])]
          have : cascadeMatchChars (c :: ct) (c2 :: r) = false := by
            have hcc : (c == c2) = false := beq_false_of_ne (fun hx => he hx.symm)
            simp [cascadeMatchChars, beq_false_of_ne hdot, hcc]
          rw [this]
          rfl

lemma rmatch_startA_cons (g L : Nat) (rest : List RNode) (s : List Char) :
    rmatch (g + 2) (Sum.inr (RNode.startA :: rest)) L s =
      if s.length == L then rmatch (g + 1) (Sum.inr rest) L s else [] := by
  rw [rmatch_inr_cons (g + 1)]
  have hA : rmatch (g + 1) (Sum.inl RNode.startA) L s =
      if s.length == L then [s] else [] := rfl
  rw [hA]
  by_cases h : (s.length == L) = true
  · rw [if_pos h, if_pos h]
    simp
  · rw [if_neg h, if_neg h]
    rfl

/-- `regex.test` for the compiled cascade regexp of a metacharacter-free
longname is exactly the character-level cascade characterization. -/
lemma rtestF_cascade (L : String) (cand : List Char) (h : RegexLiteralName L)
    (f : Nat) (hf : L.data.length + 4 ≤ f) :
    rtestF f (RNode.startA :: (L.data.map charNode ++ [clsNode])) cand =
      cascadeMatchChars L.data cand := by
  obtain ⟨g, rfl⟩ : ∃ g, f = g + 2 := ⟨f - 2, by omega⟩
  unfold rtestF
  have hinner0 : (!(rmatch (g + 2) (Sum.inr (RNode.startA :: (L.data.map charNode ++ [clsNode])))
      cand.length (cand.drop 0)).isEmpty) = cascadeMatchChars L.data cand := by
    rw [List.drop_zero, rmatch_startA_cons g, if_pos (by simp)]
    rw [rmatch_lit_cls L.data (g + 1) cand.length cand h (by omega)]
    simp
  have hinnerp : ∀ p, 0 < p → p < cand.length + 1 →
      (!(rmatch (g + 2) (Sum.inr (RNode.startA :: (L.data.map charNode ++ [clsNode])))
        cand.length (cand.drop p)).isEmpty) = false := by
    intro p hp hp2
    rw [rmatch_startA_cons g, if_neg ?_]
    · rfl
    · simp only [List.length_drop]
      intro hx
      have : cand.length - p = cand.length := by simpa using hx
      omega
  cases hcas : cascadeMatchChars L.data cand
  · rw [List.any_eq_false]
    intro p hp
    rcases Nat.eq_zero_or_pos p with rfl | hp0
    · rw [hinner0, hcas]
      exact Bool.false_ne_true
    · rw [hinnerp p hp0 (List.mem_range.mp hp)]
      exact Bool.false_ne_true
  · rw [List.any_eq_true]
    exact ⟨0, List.mem_range.mpr (by omega), by rw [hinner0, hcas]⟩

/-- On a flagged snapshot of metacharacter-free longnames, the ignore
loop completes and equals the cascade-characterization fold. -/
lemma ignoreLoop_ok (fl : List Doc) :
    ∀ st : List Doc, (∀ f ∈ fl, RegexLiteralName f.longname) →
    ignoreLoop fl st = Except.ok
      (fl.foldl (fun st f => st.filter (fun d => !(cascadeMatch f.longname d.longname))) st) := by
  induction fl with
  | nil =>
    intro st _
    rfl
  | cons fdoc fs ih =>
    intro st h
    have hlitf := h fdoc (List.mem_cons_self _ _)
    have hcomp := compile_ignorePattern fdoc.longname hlitf
    have hloop : ignoreLoop (fdoc :: fs) st =
        ignoreLoop fs (st.filter (fun d =>
          !(rtestF (ignoreFuel (ignorePattern fdoc.longname) d.longname.data)
            (RNode.startA :: (fdoc.longname.data.map charNode ++ [clsNode])) d.longname.data))) := by
      simp only [ignoreLoop, hcomp]
    rw [hloop]
    have hfeq : (st.filter (fun d =>
        !(rtestF (ignoreFuel (ignorePattern fdoc.longname) d.longname.data)
          (RNode.startA :: (fdoc.longname.data.map charNode ++ [clsNode])) d.longname.data))) =
        st.filter (fun d => !(cascadeMatch fdoc.longname d.longname)) := by
      apply List.filter_congr
      intro d _
      have h1 := escDollarChars_length_ge fdoc.longname.data
      have hfuel : fdoc.longname.data.length + 4 ≤
          ignoreFuel (ignorePattern fdoc.longname) d.longname.data := by
        unfold ignoreFuel ignorePattern
        have h2 : 2 ≤ d.longname.data.length + 2 := by omega
        have h3 := Nat.mul_le_mul_left
          (('^' :: (escDollarChars fdoc.longname.data ++
            ('[' :: '.' :: '~' :: '#' :: ']' :: []))).length + 2) h2
        simp only [List.length_cons, List.length_append] at h3 ⊢
        omega
      rw [rtestF_cascade fdoc.longname d.longname.data hlitf _ hfuel]
      rfl
    rw [hfeq, ih _ (fun f hf => h f (List.mem_cons_of_mem _ hf))]
    rfl

/-- Counterexample input to claim C6: the flagged longname `a+b` holds
an active `+`, so the generated regexp `^a+b[.~#]` does not match the
lexical descendant `a+b.c`. -/
def c6Plus : Doc := { mkDoc 1 "ModuleClass" "a+b" "src/p.js" with ignore := true }

def c6PlusChild : Doc := mkDoc 2 "ClassMethod" "a+b.c" "src/p.js"

/-- Counterexample input to claim C6: the flagged longname `Foo(` makes
`new RegExp('^Foo([.~#]')` throw a SyntaxError. -/
def c6Paren : Doc := { mkDoc 3 "ModuleClass" "Foo(" "src/q.js" with ignore := true }

/-- Counterexample to claim C6: the cascade does not remove every
lexical descendant of every flagged record.  With `a+b` flagged, its
descendant `a+b.c` survives the pass (the `+` keeps the regexp from
matching it); and with `Foo(` flagged the pass does not even complete —
regexp construction throws. -/
theorem claim_C6_counterexample :
    _resolveIgnore [c6Plus, c6PlusChild] = Except.ok [c6PlusChild] ∧
    IsLexicalDescendant c6Plus.longname c6PlusChild.longname ∧
    c6PlusChild.ignore = false ∧
    _resolveIgnore [c6Paren] = Except.error JsErr.regexError := by
  refine ⟨rfl, ⟨'.', ['c'], Or.inl rfl, by decide⟩, rfl, rfl⟩

/-- Claim C6, amended: whenever `_resolveIgnore` completes, no record
with `ignore` set remains; and when every flagged longname is free of
active regexp metacharacters (`$` is escaped by the pass; `.` keeps its
wildcard meaning) the pass completes and no surviving record is a
lexical descendant (across `.`/`~`/`#`, as in `Foo` / `Foo.bar` /
`Foo~bar`) of a flagged record's longname.  The metacharacter scope is
necessary: see `claim_C6_counterexample`. -/
theorem claim_C6_ignore_cascade_amended (S : List Doc) :
    (∀ T, _resolveIgnore S = Except.ok T → ∀ d ∈ T, d.ignore = false) ∧
    ((∀ f ∈ S, f.ignore = true → RegexLiteralName f.longname) →
      ∃ T, _resolveIgnore S = Except.ok T ∧
        ∀ f ∈ S, f.ignore = true →
          ∀ d ∈ T, ¬ IsLexicalDescendant f.longname d.longname) := by
  constructor
  · intro T hT d hd
    unfold _resolveIgnore at hT
    cases hloop : ignoreLoop (S.filter (fun d => d.ignore)) S with
    | error e =>
      rw [hloop] at hT
      cases hT
    | ok st1 =>
      rw [hloop] at hT
      cases hT
      simpa using (List.mem_filter.mp hd).2
  · intro hscope
    have hfl : ∀ f ∈ S.filter (fun d => d.ignore), RegexLiteralName f.longname := by
      intro f hf
      have hm := List.mem_filter.mp hf
      exact hscope f hm.1 (by simpa using hm.2)
    have hok := ignoreLoop_ok _ S hfl
    refine ⟨(List.foldl (fun st f => List.filter (fun d => !cascadeMatch f.longname d.longname) st)
      S (S.filter (fun d => d.ignore))).filter (fun d => !d.ignore), ?_, ?_⟩
    · unfold _resolveIgnore
      rw [hok]
    · intro f hf hfi d hd hdesc
      have hd1 := (List.mem_filter.mp hd).1
      have hff : f ∈ S.filter (fun d => d.ignore) := List.mem_filter.mpr ⟨hf, hfi⟩
      have hmatch := (mem_foldl_cascade_filter _ _ _ hd1).2 f hff
      rcases hdesc with ⟨sep, rest, hsep, heq⟩
      have hcm : cascadeMatch f.longname d.longname = true := by
        unfold cascadeMatch
        rw [heq]
        exact cascadeMatchChars_append _ _ _ hsep
      rw [hcm] at hmatch
      cases hmatch

/-- Concrete store for the amended cascade: `Foo` is flagged, `Foo.bar`
and `Foo~bar` are its lexical descendants, `Other` is unrelated. -/
def c6Foo : Doc := { mkDoc 1 "ModuleClass" "Foo" "src/f.js" with ignore := true }

def c6FooBar : Doc := mkDoc 2 "ClassMethod" "Foo.bar" "src/f.js"

def c6FooTilde : Doc := mkDoc 3 "ModuleFunction" "Foo~bar" "src/f.js"

def c6Other : Doc := mkDoc 4 "ModuleClass" "Other" "src/o.js"

def c6Store : List Doc := [c6Foo, c6FooBar, c6FooTilde, c6Other]

/-- Witness for the amended claim C6: on the concrete store every
flagged longname is metacharacter-free, so the pass completes with no
lexical descendant of the flagged `Foo` surviving. -/
theorem claim_C6_ignore_cascade_amended_witness :
    (∀ f ∈ c6Store, f.ignore = true → RegexLiteralName f.longname) ∧
    (∃ T, _resolveIgnore c6Store = Except.ok T ∧
      ∀ f ∈ c6Store, f.ignore = true →
        ∀ d ∈ T, ¬ IsLexicalDescendant f.longname d.longname) := by
  have hscope : ∀ f ∈ c6Store, f.ignore = true → RegexLiteralName f.longname := by
    decide
  exact ⟨hscope, (claim_C6_ignore_cascade_amended c6Store).2 hscope⟩

end IgnoreCascade

section Necessary

/-- Child-name list assembled by `_resolveNecessary`'s update callback:
the doc's direct/indirect subclass lists followed by its
direct/indirect implemented lists (absent lists contribute nothing). -/
def necessaryChildNames (d : Doc) : List String :=
  (d._custom_direct_subclasses.getD []) ++ (d._custom_indirect_subclasses.getD []) ++
  (d._custom_direct_implemented.getD []) ++ (d._custom_indirect_implemented.getD [])

/-- The `for (const childName of childNames)` loop of the callback:
look up `docDB.find({ longname: childName })[0]`; on the first child
that is not ignored and is exported, set `doc.export = true` and return;
otherwise leave the doc unchanged. -/
def necessaryChildLoop (st : List Doc) (names : List String) (d : Doc) : Doc :=
  match names with
  | [] => d
  | n :: ns =>
    match findByName st n with
    | none => necessaryChildLoop st ns d
    | some cd =>
      if !cd.ignore && cd.export_ then { d with export_ := true }
      else necessaryChildLoop st ns d

/-- The update callback of `_resolveNecessary` for one matched doc. -/
def necessaryFn (st : List Doc) (d : Doc) : Doc :=
  necessaryChildLoop st (necessaryChildNames d) d

/-- CoreDocResolver._resolveNecessary:
`docDB.query({ 'export': false }).update(...)`. -/
def _resolveNecessary (st : List Doc) : List Doc :=
  updateByIds necessaryFn ((st.filter (fun d => d.export_ == false)).map (·.id)) st

/-- CoreDocResolver._resolveUnexportIdentifier: when the config does not
keep unexported identifiers, `docDB.query({ 'export': false }).update({ ignore: true })`. -/
def _resolveUnexportIdentifier (cfg : Config) (st : List Doc) : List Doc :=
  if cfg.unexportIdentifier then st
  else st.map (fun d => if d.export_ == false then { d with ignore := true } else d)

/-- Promotion of a doc to exported, the only mutation
`_resolveNecessary` performs. -/
def promoteExport (d : Doc) : Doc := { d with export_ := true }

/-- Pointwise relation between the store before `_resolveNecessary` and
any intermediate store of its update fold: every record is unchanged or
promoted to exported. -/
def PromoteRel (S T : List Doc) : Prop :=
  List.Forall₂ (fun a b => b = a ∨ b = promoteExport a) S T

lemma promoteExport_promoteExport (a : Doc) :
    promoteExport (promoteExport a) = promoteExport a := rfl

lemma promoteRel_refl (S : List Doc) : PromoteRel S S := by
  induction S with
  | nil => exact List.Forall₂.nil
  | cons a as ih => exact List.Forall₂.cons (Or.inl rfl) ih

lemma promoteRel_longname {a b : Doc} (h : b = a ∨ b = promoteExport a) :
    b.longname = a.longname := by rcases h with rfl | rfl <;> rfl


lemma findByName_cons_eq (a : Doc) (as : List Doc) (l : String) :
    findByName (a :: as) l =
      if (a.longname == l) = true then some a else findByName as l := by
  by_cases h : (a.longname == l) = true
  · rw [if_pos h]
    exact List.find?_cons_of_pos as h
  · rw [if_neg h]
    exact List.find?_cons_of_neg as h

lemma findByName_promoteRel {S T : List Doc} (h : PromoteRel S T) (l : String) {c : Doc}
    (hf : findByName S l = some c) :
    findByName T l = some c ∨ findByName T l = some (promoteExport c) := by
  induction h with
  | nil => cases hf
  | @cons a b as bs hab htail ih =>
    rw [findByName_cons_eq] at hf
    rw [findByName_cons_eq]
    by_cases hl : (a.longname == l) = true
    · rw [if_pos hl] at hf
      have hbl : (b.longname == l) = true := by rw [promoteRel_longname hab]; exact hl
      rw [if_pos hbl]
      rcases Option.some.inj hf with rfl
      rcases hab with rfl | rfl
      · exact Or.inl rfl
      · exact Or.inr rfl
    · rw [if_neg hl] at hf
      have hbl : ¬(b.longname == l) = true := by rw [promoteRel_longname hab]; exact hl
      rw [if_neg hbl]
      exact ih hf

lemma promoteRel_modifyFirstWhere {S T : List Doc} (h : PromoteRel S T)
    (p : Doc → Bool) (f : Doc → Doc) (hf : ∀ y, f y = y ∨ f y = promoteExport y) :
    PromoteRel S (modifyFirstWhere p f T) := by
  induction h with
  | nil => exact List.Forall₂.nil
  | @cons a b as bs hab htail ih =>
    unfold modifyFirstWhere
    by_cases hp : p b
    · rw [if_pos hp]
      refine List.Forall₂.cons ?_ htail
      rcases hf b with hfb | hfb <;> rcases hab with rfl | rfl
      · rw [hfb]; exact Or.inl rfl
      · rw [hfb]; exact Or.inr rfl
      · rw [hfb]; exact Or.inr rfl
      · rw [hfb, promoteExport_promoteExport]; exact Or.inr rfl
    · rw [if_neg hp]
      exact List.Forall₂.cons hab ih

lemma necessaryChildLoop_cons (st : List Doc) (n : String) (ns : List String) (d : Doc) :
    necessaryChildLoop st (n :: ns) d =
      match findByName st n with
      | none => necessaryChildLoop st ns d
      | some cd =>
        if !cd.ignore && cd.export_ then { d with export_ := true }
        else necessaryChildLoop st ns d := rfl

lemma necessaryChildLoop_cases (st : List Doc) (names : List String) (d : Doc) :
    necessaryChildLoop st names d = d ∨ necessaryChildLoop st names d = promoteExport d := by
  induction names with
  | nil => exact Or.inl rfl
  | cons n ns ih =>
    cases hf : findByName st n with
    | none =>
      have hred : necessaryChildLoop st (n :: ns) d = necessaryChildLoop st ns d := by
        rw [necessaryChildLoop_cons, hf]
      rw [hred]
      exact ih
    | some cd =>
      have hred : necessaryChildLoop st (n :: ns) d =
          if !cd.ignore && cd.export_ then { d with export_ := true }
          else necessaryChildLoop st ns d := by
        rw [necessaryChildLoop_cons, hf]
      rw [hred]
      by_cases hp : (!cd.ignore && cd.export_) = true
      · rw [if_pos hp]
        exact Or.inr rfl
      · rw [if_neg hp]
        exact ih

lemma necessaryFn_cases (st : List Doc) (d : Doc) :
    necessaryFn st d = d ∨ necessaryFn st d = promoteExport d :=
  necessaryChildLoop_cases st (necessaryChildNames d) d

lemma necessaryFn_id (st : List Doc) (y : Doc) : (necessaryFn st y).id = y.id := by
  rcases necessaryFn_cases st y with h | h
  · rw [h]
  · rw [h]; rfl

lemma necessaryChildLoop_fires (st : List Doc) (names : List String) (d : Doc)
    (h : ∃ n ∈ names, ∃ cd, findByName st n = some cd ∧ cd.ignore = false ∧ cd.export_ = true) :
    necessaryChildLoop st names d = promoteExport d := by
  induction names with
  | nil =>
    rcases h with ⟨n, hn, -⟩
    cases hn
  | cons m ms ih =>
    rcases h with ⟨n, hn, cd, hfind, hci, hce⟩
    rcases List.mem_cons.mp hn with rfl | hn'
    · have hred : necessaryChildLoop st (n :: ms) d =
          if !cd.ignore && cd.export_ then { d with export_ := true }
          else necessaryChildLoop st ms d := by
        rw [necessaryChildLoop_cons, hfind]
      rw [hred, if_pos (by rw [hci, hce]; rfl)]
      rfl
    · cases hfm : findByName st m with
      | none =>
        have hred : necessaryChildLoop st (m :: ms) d = necessaryChildLoop st ms d := by
          rw [necessaryChildLoop_cons, hfm]
        rw [hred]
        exact ih ⟨n, hn', cd, hfind, hci, hce⟩
      | some cm =>
        have hred : necessaryChildLoop st (m :: ms) d =
            if !cm.ignore && cm.export_ then { d with export_ := true }
            else necessaryChildLoop st ms d := by
          rw [necessaryChildLoop_cons, hfm]
        rw [hred]
        by_cases hp : (!cm.ignore && cm.export_) = true
        · rw [if_pos hp]
          rfl
        · rw [if_neg hp]
          exact ih ⟨n, hn', cd, hfind, hci, hce⟩

lemma getById_cons_eq (a : Doc) (as : List Doc) (j : Nat) :
    getById (a :: as) j = if (a.id == j) = true then some a else getById as j := by
  by_cases h : (a.id == j) = true
  · rw [if_pos h]
    exact List.find?_cons_of_pos as h
  · rw [if_neg h]
    exact List.find?_cons_of_neg as h

lemma modifyById_cons (a : Doc) (as : List Doc) (i : Nat) (f : Doc → Doc) :
    modifyById (a :: as) i f =
      if (a.id == i) = true then f a :: as else a :: modifyById as i f := by
  simp only [modifyById, modifyFirstWhere]

lemma getById_modifyById_ne (T : List Doc) (i j : Nat) (f : Doc → Doc)
    (hf : ∀ x, (f x).id = x.id) (hne : i ≠ j) :
    getById (modifyById T i f) j = getById T j := by
  induction T with
  | nil => rfl
  | cons a as ih =>
    rw [modifyById_cons]
    by_cases ha : (a.id == i) = true
    · rw [if_pos ha, getById_cons_eq, getById_cons_eq]
      have hai : a.id = i := eq_of_beq ha
      have h1 : ((f a).id == j) = false := by
        rw [hf a, hai]
        exact beq_eq_false_iff_ne.mpr hne
      have h2 : (a.id == j) = false := by
        rw [hai]
        exact beq_eq_false_iff_ne.mpr hne
      rw [h1, h2]
      simp
    · rw [if_neg ha, getById_cons_eq, getById_cons_eq]
      by_cases haj : (a.id == j) = true
      · rw [if_pos haj, if_pos haj]
      · rw [if_neg haj, if_neg haj]
        exact ih

lemma getById_modifyById_eq (T : List Doc) (j : Nat) (f : Doc → Doc) (x : Doc)
    (hx : getById T j = some x) (hf : ∀ y, (f y).id = y.id) :
    getById (modifyById T j f) j = some (f x) := by
  induction T with
  | nil => cases hx
  | cons a as ih =>
    rw [modifyById_cons]
    rw [getById_cons_eq] at hx
    by_cases ha : (a.id == j) = true
    · rw [if_pos ha] at hx
      rcases Option.some.inj hx with rfl
      rw [if_pos ha, getById_cons_eq]
      have : ((f a).id == j) = true := by rw [hf a]; exact ha
      rw [if_pos this]
    · rw [if_neg ha] at hx
      rw [if_neg ha, getById_cons_eq, if_neg ha]
      exact ih hx

lemma getById_map (g : Doc → Doc) (hg : ∀ y, (g y).id = y.id) (T : List Doc) (j : Nat)
    (x : Doc) (hx : getById T j = some x) : getById (T.map g) j = some (g x) := by
  induction T with
  | nil => cases hx
  | cons a as ih =>
    rw [getById_cons_eq] at hx
    rw [List.map_cons, getById_cons_eq]
    by_cases ha : (a.id == j) = true
    · rw [if_pos ha] at hx
      rcases Option.some.inj hx with rfl
      have : ((g a).id == j) = true := by rw [hg a]; exact ha
      rw [if_pos this]
    · rw [if_neg ha] at hx
      have : ((g a).id == j) = false := by
        rw [hg a]
        exact Bool.of_not_eq_true ha
      rw [this]
      simpa using ih hx

lemma getById_of_mem_nodup {S : List Doc} {d : Doc} (hd : d ∈ S)
    (hid : (S.map Doc.id).Nodup) : getById S d.id = some d := by
  induction S with
  | nil => cases hd
  | cons a as ih =>
    rw [getById_cons_eq]
    rcases List.mem_cons.mp hd with rfl | hd'
    · rw [if_pos (by simp)]
    · have hnd := List.nodup_cons.mp hid
      have hne : (a.id == d.id) = false := by
        refine beq_eq_false_iff_ne.mpr ?_
        intro he
        exact hnd.1 (he ▸ List.mem_map_of_mem Doc.id hd')
      rw [hne]
      simpa using ih hd' hnd.2

lemma necessary_fold_untouched (S : List Doc) (d : Doc) (ids : List Nat) :
    ∀ T x, PromoteRel S T → d.id ∉ ids → getById T d.id = some x →
      PromoteRel S (ids.foldl (fun st i => modifyById st i (necessaryFn st)) T) ∧
      getById (ids.foldl (fun st i => modifyById st i (necessaryFn st)) T) d.id = some x := by
  induction ids with
  | nil => exact fun T x hrel _ hget => ⟨hrel, hget⟩
  | cons i is ih =>
    intro T x hrel hnin hget
    have hne : i ≠ d.id := fun h => hnin (h ▸ List.mem_cons_self i is)
    have hnin' : d.id ∉ is := fun h => hnin (List.mem_cons_of_mem i h)
    have hrel' : PromoteRel S (modifyById T i (necessaryFn T)) :=
      promoteRel_modifyFirstWhere hrel _ _ (necessaryFn_cases T)
    have hget' : getById (modifyById T i (necessaryFn T)) d.id = some x := by
      rw [getById_modifyById_ne T i d.id _ (necessaryFn_id T) hne]
      exact hget
    exact ih _ x hrel' hnin' hget'

/-- Claim C5: a non-exported record with a surviving (non-ignored)
exported descendant in one of the four subclass/implementor lists the
inheritance pass computed ends `_resolveNecessary` with `export = true`,
and the later `_resolveUnexportIdentifier` pass leaves it unflagged
(its record, in particular its `ignore` field, is untouched). -/
theorem claim_C5_export_necessity (S : List Doc) (cfg : Config) (d c : Doc)
    (hid : (S.map Doc.id).Nodup)
    (hd : d ∈ S) (hde : d.export_ = false)
    (hcn : c.longname ∈ necessaryChildNames d)
    (hfind : findByName S c.longname = some c)
    (hce : c.export_ = true) (hci : c.ignore = false) :
    getById (_resolveNecessary S) d.id = some { d with export_ := true } ∧
    getById (_resolveUnexportIdentifier cfg (_resolveNecessary S)) d.id =
      some { d with export_ := true } := by
  have hmem : d.id ∈ (S.filter (fun d => d.export_ == false)).map (·.id) := by
    refine List.mem_map_of_mem _ (List.mem_filter.mpr ⟨hd, ?_⟩)
    rw [hde]
    rfl
  have hsubl : ((S.filter (fun d => d.export_ == false)).map (·.id)).Sublist
      (S.map (fun d => d.id)) := List.Sublist.map _ (List.filter_sublist S)
  have hnodup : ((S.filter (fun d => d.export_ == false)).map (·.id)).Nodup :=
    List.Nodup.sublist hsubl hid
  rcases List.append_of_mem hmem with ⟨pre, post, hsplit⟩
  rw [hsplit] at hnodup
  have hpre : d.id ∉ pre := by
    have := List.nodup_append.mp hnodup
    intro hin
    exact this.2.2 hin (List.mem_cons_self _ _)
  have hpost : d.id ∉ post := by
    have := List.nodup_append.mp hnodup
    exact (List.nodup_cons.mp this.2.1).1
  have hres : _resolveNecessary S =
      (pre ++ d.id :: post).foldl (fun st i => modifyById st i (necessaryFn st)) S := by
    unfold _resolveNecessary updateByIds
    rw [hsplit]
  -- phase 1: fold over the ids before d leaves d untouched
  have hphase1 := necessary_fold_untouched S d pre S d (promoteRel_refl S) hpre
    (getById_of_mem_nodup hd hid)
  set T0 := pre.foldl (fun st i => modifyById st i (necessaryFn st)) S with hT0
  -- the step at d promotes d
  have hfire : necessaryFn T0 d = promoteExport d := by
    unfold necessaryFn
    refine necessaryChildLoop_fires T0 (necessaryChildNames d) d ?_
    rcases findByName_promoteRel hphase1.1 c.longname hfind with hF | hF
    · exact ⟨c.longname, hcn, c, hF, hci, hce⟩
    · exact ⟨c.longname, hcn, promoteExport c, hF, hci, rfl⟩
  have hstep : getById (modifyById T0 d.id (necessaryFn T0)) d.id =
      some (promoteExport d) := by
    rw [getById_modifyById_eq T0 d.id _ d hphase1.2 (necessaryFn_id T0), hfire]
  have hrel1 : PromoteRel S (modifyById T0 d.id (necessaryFn T0)) :=
    promoteRel_modifyFirstWhere hphase1.1 _ _ (necessaryFn_cases T0)
  -- phase 3: the ids after d leave the promoted record untouched
  have hphase3 := necessary_fold_untouched S d post (modifyById T0 d.id (necessaryFn T0))
    (promoteExport d) hrel1 hpost hstep
  have hconc1 : getById (_resolveNecessary S) d.id = some (promoteExport d) := by
    rw [hres, List.foldl_append]
    exact hphase3.2
  refine ⟨hconc1, ?_⟩
  unfold _resolveUnexportIdentifier
  by_cases hcfg : cfg.unexportIdentifier = true
  · rw [if_pos hcfg]
    exact hconc1
  · rw [if_neg hcfg]
    have hg : ∀ y : Doc, ((if y.export_ == false then { y with ignore := true } else y : Doc)).id = y.id := by
      intro y
      by_cases hy : (y.export_ == false) = true
      · rw [if_pos hy]
      · rw [if_neg hy]
    have := getById_map _ hg (_resolveNecessary S) d.id (promoteExport d) hconc1
    rw [this]
    have hpe : ((promoteExport d).export_ == false) = false := rfl
    rw [if_neg (by rw [hpe]; exact Bool.false_ne_true)]
    rfl

/-- Concrete store for export-necessity promotion: unexported `Base`
with exported direct subclass `Derived` (as recorded by the inheritance
pass). -/
def c5Base : Doc :=
  { mkDoc 1 "ModuleClass" "Base" "src/b.js" with _custom_direct_subclasses := some ["Derived"] }

def c5Derived : Doc :=
  { mkDoc 2 "ModuleClass" "Derived" "src/d.js" with export_ := true, extends_ := some ["Base"] }

def c5Store : List Doc := [c5Base, c5Derived]

def c5Config : Config :=
  { removeCommonPath := false, access := none, autoPrivate := false,
    unexportIdentifier := false, undocumentIdentifier := true }

/-- Witness for claim C5: on the concrete store, `Base` ends the
necessary pass exported and the unexported-identifier pass leaves it
unflagged. -/
theorem claim_C5_export_necessity_witness :
    getById (_resolveNecessary c5Store) 1 = some { c5Base with export_ := true } ∧
    getById (_resolveUnexportIdentifier c5Config (_resolveNecessary c5Store)) 1 =
      some { c5Base with export_ := true } :=
  claim_C5_export_necessity c5Store c5Config c5Base c5Derived (by decide) (by decide) rfl
    (by decide) (by decide) rfl rfl

end Necessary

section ExtendsChain

/-- State threaded through `_resolveExtendsChain`: the store plus the
run-local `seenData` map (doc longname × `_custom_<X>` list name) that
guards first-time initialization of each derived list. -/
structure ECState where
  store : List Doc
  seenData : List (String × String)
deriving Repr

/-- The `seen(doc, type)` helper: report whether the (longname, list
name) pair was already seen this run, and record it. -/
def seenEC (ec : ECState) (l ty : String) : Bool × ECState :=
  (ec.seenData.contains (l, ty), ⟨ec.store, (l, ty) :: ec.seenData⟩)

/-- The `if (!seen(target, ty)) target.list = []; target.list.push(v)`
pattern, mutating the first record matched by `p` (the reference the
preceding `find` returned); `keyLongname` keys the seen guard. -/
def initPushWith (ec : ECState) (p : Doc → Bool) (keyLongname ty : String)
    (get : Doc → Option (List String)) (set : Doc → Option (List String) → Doc)
    (v : String) : ECState :=
  let r := seenEC ec keyLongname ty
  ⟨modifyFirstWhere p
      (fun d => set d (some ((if r.1 then (get d).getD [] else []) ++ [v]))) r.2.store,
   r.2.seenData⟩

/-- `initPushWith` for a target obtained through `findByName(...)[0]`. -/
def initPushByName (ec : ECState) (targetL ty : String)
    (get : Doc → Option (List String)) (set : Doc → Option (List String) → Doc)
    (v : String) : ECState :=
  initPushWith ec (fun d => d.longname == targetL) targetL ty get set v

/-- The guarded `selfDoc._custom_indirect_implements.push(...impls)`
pattern: like `initPushByName` but targeting the loop doc by id and
appending a whole list. -/
def initPushManyById (ec : ECState) (selfId : Nat) (keyL ty : String)
    (get : Doc → Option (List String)) (set : Doc → Option (List String) → Doc)
    (vs : List String) : ECState :=
  let r := seenEC ec keyL ty
  ⟨modifyFirstWhere (fun d => d.id == selfId)
      (fun d => set d (some ((if r.1 then (get d).getD [] else []) ++ vs))) r.2.store,
   r.2.seenData⟩

/-- The `do { ... } while (doc.extends)` ancestor walk of
`extendsChain`, with fuel: look up `doc.extends[0]`; a found superclass
whose longname equals the origin's means circular extends and stops the
walk; a found superclass is appended to the chain and walked into while
it has an `extends` field; an unresolved reference appends the raw name
and stops.  `none` means the fuel ran out: the JavaScript loop does not
terminate. -/
def walkExtends (st : List Doc) (selfL : String) :
    Nat → Doc → List (Option String) → Option (List (Option String))
  | 0, _, _ => none
  | Nat.succ fuel, doc, chains =>
    let ext0 := doc.extends_.bind List.head?
    match findByNameOpt st ext0 with
    | some sc =>
      if sc.longname == selfL then some chains
      else if sc.extends_.isSome then
        walkExtends st selfL fuel sc (chains ++ [some sc.longname])
      else some (chains ++ [some sc.longname])
    | none => some (chains ++ [ext0])

/-- The `extendsChain(doc)` closure of `_resolveExtendsChain` for one
class doc: walk ancestors, record the direct subclass on `chains[0]`,
the indirect subclass on the rest of the chain, accumulate the
ancestors' `implements` into the origin's indirect implements, and store
the reversed chain in `_custom_extends_chains`. -/
def extendsChainStep (fuel : Nat) (ec : ECState) (selfId : Nat) : Except JsErr ECState :=
  match getById ec.store selfId with
  | none => Except.ok ec
  | some selfDoc =>
    if selfDoc.extends_.isNone then Except.ok ec
    else
      match walkExtends ec.store selfDoc.longname fuel selfDoc [] with
      | none => Except.error JsErr.fuelOut
      | some [] => Except.ok ec
      | some (c0 :: crest) =>
        let ec1 :=
          match findByNameOpt ec.store c0 with
          | some sc =>
            let e := initPushByName ec sc.longname "_custom_direct_subclasses"
              (fun d => d._custom_direct_subclasses)
              (fun d v => { d with _custom_direct_subclasses := v }) selfDoc.longname
            initPushByName e sc.longname "_custom_dependent_file_paths"
              (fun d => d._custom_dependent_file_paths)
              (fun d v => { d with _custom_dependent_file_paths := v }) selfDoc.filePath
          | none => ec
        let ec2 := crest.foldl (fun e c =>
          match findByNameOpt e.store c with
          | some sc =>
            let e := initPushByName e sc.longname "_custom_indirect_subclasses"
              (fun d => d._custom_indirect_subclasses)
              (fun d v => { d with _custom_indirect_subclasses := v }) selfDoc.longname
            initPushByName e sc.longname "_custom_dependent_file_paths"
              (fun d => d._custom_dependent_file_paths)
              (fun d v => { d with _custom_dependent_file_paths := v }) selfDoc.filePath
          | none => e) ec1
        let ec3 := (c0 :: crest).foldl (fun e c =>
          match findByNameOpt e.store c with
          | none => e
          | some sc =>
            match sc.implements_ with
            | none => e
            | some impls =>
              initPushManyById e selfId selfDoc.longname "_custom_indirect_implements"
                (fun d => d._custom_indirect_implements)
                (fun d v => { d with _custom_indirect_implements := v }) impls) ec2
        Except.ok ⟨modifyById ec3.store selfId
          (fun d => { d with _custom_extends_chains := some (c0 :: crest).reverse }),
          ec3.seenData⟩

/-- The `implemented(doc)` closure: record the doc on its directly
implemented interfaces and on its indirectly implemented interfaces
(the latter list having been filled during `extendsChainStep` of the
same doc, hence the re-read of the record). -/
def implementedStep (ec : ECState) (selfId : Nat) : ECState :=
  match getById ec.store selfId with
  | none => ec
  | some selfDoc =>
    let ec1 := (selfDoc.implements_.getD []).foldl (fun e l =>
      match findByName e.store l with
      | none => e
      | some sc =>
        let e := initPushByName e sc.longname "_custom_direct_implemented"
          (fun d => d._custom_direct_implemented)
          (fun d v => { d with _custom_direct_implemented := v }) selfDoc.longname
        initPushByName e sc.longname "_custom_dependent_file_paths"
          (fun d => d._custom_dependent_file_paths)
          (fun d v => { d with _custom_dependent_file_paths := v }) selfDoc.filePath) ec
    let indir := ((getById ec1.store selfId).bind (fun d => d._custom_indirect_implements)).getD []
    indir.foldl (fun e l =>
      match findByName e.store l with
      | none => e
      | some sc =>
        let e := initPushByName e sc.longname "_custom_indirect_implemented"
          (fun d => d._custom_indirect_implemented)
          (fun d v => { d with _custom_indirect_implemented := v }) selfDoc.longname
        initPushByName e sc.longname "_custom_dependent_file_paths"
          (fun d => d._custom_dependent_file_paths)
          (fun d v => { d with _custom_dependent_file_paths := v }) selfDoc.filePath) ec1

/-- The trailing loop of `_resolveExtendsChain`: union each class doc's
`_custom_dependent_file_paths` into the ModuleFile doc of its file.
When no such file doc exists, `seen(fileDoc, ...)` dereferences
`undefined` and throws a TypeError. -/
def fileDepsStep (ec : ECState) (i : Nat) : Except JsErr ECState :=
  match getById ec.store i with
  | none => Except.ok ec
  | some doc =>
    match doc._custom_dependent_file_paths with
    | none => Except.ok ec
    | some deps =>
      match ec.store.find? (fun d => d.kind == "ModuleFile" && d.filePath == doc.filePath) with
      | none => Except.error JsErr.typeError
      | some fd =>
        let r := seenEC ec fd.longname "_custom_dependent_file_paths"
        let st1 := if r.1 then r.2.store
          else modifyFirstWhere (fun d => d.kind == "ModuleFile" && d.filePath == doc.filePath)
            (fun d => { d with _custom_dependent_file_paths := some [] }) r.2.store
        let st2 := deps.foldl (fun st fp =>
          modifyFirstWhere (fun d => d.kind == "ModuleFile" && d.filePath == doc.filePath)
            (fun d =>
              let cur := d._custom_dependent_file_paths.getD []
              if cur.contains fp then d
              else { d with _custom_dependent_file_paths := some (cur ++ [fp]) }) st) st1
        Except.ok ⟨st2, r.2.seenData⟩

/-- The per-doc loop `for (const doc of docs) { extendsChain(doc);
implemented(doc); }`. -/
def extendsChainPass (fuel : Nat) (ids : List Nat) (ec : ECState) : Except JsErr ECState :=
  match ids with
  | [] => Except.ok ec
  | i :: is =>
    match extendsChainStep fuel ec i with
    | Except.error e => Except.error e
    | Except.ok ec1 => extendsChainPass fuel is (implementedStep ec1 i)

/-- The second per-doc loop feeding `fileDepsStep`. -/
def fileDepsPass (ids : List Nat) (ec : ECState) : Except JsErr ECState :=
  match ids with
  | [] => Except.ok ec
  | i :: is =>
    match fileDepsStep ec i with
    | Except.error e => Except.error e
    | Except.ok ec1 => fileDepsPass is ec1

/-- CoreDocResolver._resolveExtendsChain over the snapshot
`docDB.find({ kind: 'ModuleClass' })`. -/
def _resolveExtendsChain (fuel : Nat) (st : List Doc) : Except JsErr (List Doc) :=
  let ids := (st.filter (fun d => d.kind == "ModuleClass")).map (·.id)
  match extendsChainPass fuel ids ⟨st, []⟩ with
  | Except.error e => Except.error e
  | Except.ok ec =>
    match fileDepsPass ids ec with
    | Except.error e => Except.error e
    | Except.ok ec2 => Except.ok ec2.store

end ExtendsChain

section RemainingPasses

/-- CoreDocResolver._resolveAccess: a doc with no access becomes public
(private when `autoPrivate` and the name starts with the `_`
convention); a doc whose access is outside the configured allowed set is
flagged. -/
def _resolveAccess (cfg : Config) (st : List Doc) : List Doc :=
  let access := cfg.access.getD ["public", "protected", "private"]
  st.map (fun d =>
    let d := if d.access.isNone then
        { d with access := some (if cfg.autoPrivate && d.name.startsWith "_" then "private" else "public") }
      else d
    if access.contains (d.access.getD "") then d else { d with ignore := true })

/-- CoreDocResolver._resolveUndocumentIdentifier: when the config does
not keep undocumented identifiers,
`docDB.query({ undocument: true }).update({ ignore: true })`. -/
def _resolveUndocumentIdentifier (cfg : Config) (st : List Doc) : List Doc :=
  if cfg.undocumentIdentifier then st
  else st.map (fun d => if d.undocument then { d with ignore := true } else d)

/-- Longest shared leading segment sequence of two `/`-separated
paths. -/
def commonPrefixSegs : List String → List String → List String
  | a :: as, b :: bs => if a == b then a :: commonPrefixSegs as bs else []
  | _, _ => []

/-- Modelled from the spec: the external
`typhonjs:util:file:path:common:mapped` event of the `typhonjs-utils`
collaborator, which is not part of this repository.  Per spec section
4.5 step 1 it computes "the longest shared path prefix across all real
records' file path"; here: the common leading directory segments of the
`filePath` fields, rendered with a trailing `/`. -/
def commonPathOf (paths : List String) : String :=
  match paths.map (fun q => (q.splitOn "/").dropLast) with
  | [] => ""
  | s :: ss =>
    let c := ss.foldl commonPrefixSegs s
    if c.isEmpty then "" else String.intercalate "/" c ++ "/"

/-- `value.replace(new RegExp('^' + escapedCommonPath), '')`, modelled
as a literal prefix strip (exact for common paths free of active regexp
metacharacters; the source escapes `\` and `/`). -/
def stripCommon (pre s : String) : String :=
  if pre != "" && s.startsWith pre then s.drop pre.length else s

/-- The two OR-ed groups of `_resolveCommonPath`'s find call
`find({ kind: { '!is': 'ModuleMemory' } }, { kind: { '!is': 'VirtualExternal' } })`,
kept as in the source (their disjunction holds for every doc since a
kind cannot equal both strings). -/
def commonPathDocPred (d : Doc) : Bool :=
  d.kind != "ModuleMemory" || d.kind != "VirtualExternal"

/-- CoreDocResolver._resolveCommonPath: strip the common file path
prefix from `longname`, `memberof` and `name` of the matched docs. -/
def _resolveCommonPath (st : List Doc) : List Doc :=
  let docs := st.filter commonPathDocPred
  if docs.isEmpty then st
  else
    let commonPath := commonPathOf (docs.map (·.filePath))
    if commonPath == "" then st
    else st.map (fun d =>
      if commonPathDocPred d then
        let ln := if d.longname != "" then stripCommon commonPath d.longname else d.longname
        let mo := if d.memberof != "" then stripCommon commonPath d.memberof else d.memberof
        let nm := if d.name != "" then stripCommon commonPath d.name else d.name
        { d with longname := ln, memberof := mo, name := nm }
      else d)

/-- The guarded `testDoc._custom_test_targets.push([a, b])` pattern of
`_resolveTestRelation`. -/
def initPushPairById (ec : ECState) (selfId : Nat) (keyL ty : String)
    (v : String × String) : ECState :=
  let r := seenEC ec keyL ty
  ⟨modifyFirstWhere (fun d => d.id == selfId)
      (fun d =>
        let cur := if r.1 then d._custom_test_targets.getD [] else []
        { d with _custom_test_targets := some (cur ++ [v]) }) r.2.store,
   r.2.seenData⟩

/-- First loop of `_resolveTestRelation` for one test doc: wire
`_custom_tests` on each resolved test target and `_custom_test_targets`
on the test doc itself. -/
def testRelStep (ec : ECState) (i : Nat) : ECState :=
  match getById ec.store i with
  | none => ec
  | some testDoc =>
    match testDoc.testTargets with
    | none => ec
    | some tts =>
      tts.foldl (fun e tt =>
        match findByName e.store tt with
        | some doc =>
          let e := initPushByName e doc.longname "_custom_tests"
            (fun d => d._custom_tests) (fun d v => { d with _custom_tests := v }) testDoc.longname
          initPushPairById e i testDoc.longname "_custom_test_targets" (doc.longname, tt)
        | none => initPushPairById e i testDoc.longname "_custom_test_targets" (tt, tt)) ec

/-- Second loop of `_resolveTestRelation` for one test doc: join the
descriptions of the `~`/`.`-derived parent test docs with its own into
`testFullDescription`. -/
def testDescStep (st : List Doc) (i : Nat) : List Doc :=
  match getById st i with
  | none => st
  | some testDoc =>
    let parents := ((testDoc.memberof.splitOn "~").getD 1 "").splitOn "."
    let desc := parents.foldl (fun acc parent =>
      match st.find? (fun d => d.kind == "Test" && d.name == parent) with
      | none => acc
      | some doc => acc ++ [doc.description]) []
    let desc := desc ++ [testDoc.description]
    modifyById st i (fun d => { d with testFullDescription := some (String.intercalate " " desc) })

/-- CoreDocResolver._resolveTestRelation over the
`docDB.find({ kind: 'Test' })` snapshot (a fresh `seenData` per run). -/
def _resolveTestRelation (st : List Doc) : List Doc :=
  let ids := (st.filter (fun d => d.kind == "Test")).map (·.id)
  let ec := ids.foldl testRelStep ⟨st, []⟩
  ids.foldl testDescStep ec.store

/-- CoreDocResolver.resolve: the full pass sequence in source order
(`filePath` scoping unused, i.e. `undefined`; logging omitted).  `fuel`
bounds the ancestor walks of the inheritance pass. -/
def resolve (cfg : Config) (fuel : Nat) (st : List Doc) : Except JsErr (List Doc) :=
  let st := if cfg.removeCommonPath then _resolveCommonPath st else st
  match _resolveExtendsChain fuel st with
  | Except.error e => Except.error e
  | Except.ok st =>
    let st := _resolveNecessary st
    let st := _resolveAccess cfg st
    let st := _resolveUnexportIdentifier cfg st
    let st := _resolveUndocumentIdentifier cfg st
    let st := _resolveDuplication st
    match _resolveIgnore st with
    | Except.error e => Except.error e
    | Except.ok st => Except.ok (_resolveTestRelation st)

end RemainingPasses

section ClaimC1

/-- Failing input for claim C1: a ModuleFile doc with private access, a
public exported class `A` in that file, and a public exported class `B`
extending `A` from another file. -/
def c1FileDoc : Doc := { mkDoc 1 "ModuleFile" "fileA" "fa" with access := some "private", export_ := true }

def c1ClassA : Doc := { mkDoc 2 "ModuleClass" "A" "fa" with access := some "public", export_ := true }

def c1ClassB : Doc :=
  { mkDoc 3 "ModuleClass" "B" "fb" with access := some "public", export_ := true, extends_ := some ["A"] }

def c1Store : List Doc := [c1FileDoc, c1ClassA, c1ClassB]

def c1Config : Config :=
  { removeCommonPath := false, access := some ["public"], autoPrivate := false,
    unexportIdentifier := true, undocumentIdentifier := true }

/-- Claim C1 (resolver idempotence), evaluated at the failing input: the
first `resolve` succeeds — it records `A._custom_dependent_file_paths`,
flags the file doc for its disallowed access and removes it — but the
second `resolve` on the already-resolved store throws a TypeError: the
class doc still carries `_custom_dependent_file_paths`, so the
file-dependency loop of `_resolveExtendsChain` runs
`seen(fileDoc, ...)` on the `undefined` result of looking up the
removed ModuleFile doc.  Re-running is thus not idempotent: it does not
even produce a record set. -/
theorem claim_C1_resolve_rerun_crashes :
    (resolve c1Config 10 c1Store).isOk = true ∧
    (resolve c1Config 10 c1Store).bind (resolve c1Config 10) =
      Except.error JsErr.typeError :=
  ⟨rfl, rfl⟩

end ClaimC1

section ClaimC2

/-- The origin's ancestor walk terminates for some amount of fuel. -/
def walkTerminates (st : List Doc) (selfL : String) (d : Doc) : Prop :=
  ∃ fuel, (walkExtends st selfL fuel d []).isSome = true

/-- Cyclic store whose cycle avoids the walk's origin: `A extends B`,
`B extends C`, `C extends B`. -/
def c2CycA : Doc := { mkDoc 1 "ModuleClass" "A" "fa" with extends_ := some ["B"] }

def c2CycB : Doc := { mkDoc 2 "ModuleClass" "B" "fb" with extends_ := some ["C"] }

def c2CycC : Doc := { mkDoc 3 "ModuleClass" "C" "fc" with extends_ := some ["B"] }

def c2CycStore : List Doc := [c2CycA, c2CycB, c2CycC]

lemma c2_cycle_walk_none (fuel : Nat) : ∀ chains,
    walkExtends c2CycStore "A" fuel c2CycB chains = none ∧
    walkExtends c2CycStore "A" fuel c2CycC chains = none := by
  induction fuel with
  | zero => exact fun chains => ⟨rfl, rfl⟩
  | succ n ih =>
    intro chains
    constructor
    · have hstep : walkExtends c2CycStore "A" (n + 1) c2CycB chains =
          walkExtends c2CycStore "A" n c2CycC (chains ++ [some "C"]) := rfl
      rw [hstep]
      exact (ih _).2
    · have hstep : walkExtends c2CycStore "A" (n + 1) c2CycC chains =
          walkExtends c2CycStore "A" n c2CycB (chains ++ [some "B"]) := rfl
      rw [hstep]
      exact (ih _).1

/-- Counterexample to claim C2 as stated: on a store whose extends
references form a cycle that does not pass through the origin, the
ancestor walk started at `A` never terminates — the circularity check
only compares ancestors against the origin's own longname. -/
theorem claim_C2_counterexample : ¬ walkTerminates c2CycStore "A" c2CycA := by
  rintro ⟨fuel, hf⟩
  cases fuel with
  | zero => cases hf
  | succ n =>
    have hstep : walkExtends c2CycStore "A" (n + 1) c2CycA [] =
        walkExtends c2CycStore "A" n c2CycB [some "B"] := rfl
    rw [hstep, (c2_cycle_walk_none n [some "B"]).1] at hf
    cases hf

/-- The two-record mutual cycle of the claim, alongside the module-file
records of the two files (without which the pass throws; see claim
C3). -/
def c2MutFA : Doc := mkDoc 1 "ModuleFile" "src/a.js" "src/a.js"

def c2MutA : Doc := { mkDoc 2 "ModuleClass" "A" "src/a.js" with extends_ := some ["B"] }

def c2MutFB : Doc := mkDoc 3 "ModuleFile" "src/b.js" "src/b.js"

def c2MutB : Doc := { mkDoc 4 "ModuleClass" "B" "src/b.js" with extends_ := some ["A"] }

def c2MutStore : List Doc := [c2MutFA, c2MutA, c2MutFB, c2MutB]

/-- Claim C2 as amended: the ancestor walk terminates when every
reachable extends-cycle passes through the walk's origin — in
particular, for two records where `A extends B` and `B extends A`
(alongside their module-file records) both walks stop, the pass
completes without error, and neither record's recorded
`_custom_extends_chains` contains that record's own longname; but a
cycle avoiding the origin (`claim_C2_counterexample`) loops forever. -/
theorem claim_C2_circular_extends_amended :
    walkTerminates c2MutStore "A" c2MutA ∧
    walkTerminates c2MutStore "B" c2MutB ∧
    (_resolveExtendsChain 10 c2MutStore).isOk = true ∧
    ((_resolveExtendsChain 10 c2MutStore).toOption.bind (fun st => getById st 2)).map
      (fun d => d._custom_extends_chains) = some (some [some "B"]) ∧
    ((_resolveExtendsChain 10 c2MutStore).toOption.bind (fun st => getById st 4)).map
      (fun d => d._custom_extends_chains) = some (some [some "A"]) ∧
    some "A" ∉ (((_resolveExtendsChain 10 c2MutStore).toOption.bind (fun st => getById st 2)).bind
      (fun d => d._custom_extends_chains)).getD [] ∧
    some "B" ∉ (((_resolveExtendsChain 10 c2MutStore).toOption.bind (fun st => getById st 4)).bind
      (fun d => d._custom_extends_chains)).getD [] := by
  refine ⟨⟨3, rfl⟩, ⟨3, rfl⟩, rfl, rfl, rfl, by decide, by decide⟩

end ClaimC2

section ClaimC3

/-- A store containing exactly the class chain `A ← B ← C` (`C extends
B`, `B extends A`) and nothing else, as claim C3 states it. -/
def c3BareA : Doc := mkDoc 1 "ModuleClass" "A" "src/a.js"

def c3BareB : Doc := { mkDoc 2 "ModuleClass" "B" "src/b.js" with extends_ := some ["A"] }

def c3BareC : Doc := { mkDoc 3 "ModuleClass" "C" "src/c.js" with extends_ := some ["B"] }

def c3BareStore : List Doc := [c3BareA, c3BareB, c3BareC]

/-- Counterexample to claim C3 as stated: on a store containing exactly
the three class records, the inheritance pass does not complete at all —
its file-dependency loop looks up the ModuleFile doc of superclass `A`
(which now carries `_custom_dependent_file_paths`), finds none, and
`seen(fileDoc, ...)` throws a TypeError. -/
theorem claim_C3_counterexample :
    _resolveExtendsChain 10 c3BareStore = Except.error JsErr.typeError := rfl

/-- The chain store amended with the module-file records of the three
files. -/
def c3FileA : Doc := mkDoc 1 "ModuleFile" "src/a.js" "src/a.js"

def c3ClassA : Doc := mkDoc 2 "ModuleClass" "A" "src/a.js"

def c3FileB : Doc := mkDoc 3 "ModuleFile" "src/b.js" "src/b.js"

def c3ClassB : Doc := { mkDoc 4 "ModuleClass" "B" "src/b.js" with extends_ := some ["A"] }

def c3FileC : Doc := mkDoc 5 "ModuleFile" "src/c.js" "src/c.js"

def c3ClassC : Doc := { mkDoc 6 "ModuleClass" "C" "src/c.js" with extends_ := some ["B"] }

def c3Store : List Doc := [c3FileA, c3ClassA, c3FileB, c3ClassB, c3FileC, c3ClassC]

/-- Claim C3 as amended: for the class chain `A ← B ← C` stored together
with its module-file records, the inheritance pass completes, and
afterwards `A._custom_direct_subclasses` is exactly `[B]`,
`A._custom_indirect_subclasses` is exactly `[C]`, and
`C._custom_extends_chains` is exactly `[A, B]` root-first. -/
theorem claim_C3_chain_lists_amended :
    (_resolveExtendsChain 10 c3Store).isOk = true ∧
    ((_resolveExtendsChain 10 c3Store).toOption.bind (fun st => getById st 2)).map
      (fun d => d._custom_direct_subclasses) = some (some ["B"]) ∧
    ((_resolveExtendsChain 10 c3Store).toOption.bind (fun st => getById st 2)).map
      (fun d => d._custom_indirect_subclasses) = some (some ["C"]) ∧
    ((_resolveExtendsChain 10 c3Store).toOption.bind (fun st => getById st 6)).map
      (fun d => d._custom_extends_chains) = some (some [some "A", some "B"]) :=
  ⟨rfl, rfl, rfl, rfl⟩

end ClaimC3

section ParamParser

/-- Selector of which clauses `parseParamValue` extracts, the `options`
argument `{ type, name, desc }`. -/
structure ParamOptions where
  type : Bool
  name : Bool
  desc : Bool
deriving Repr, DecidableEq

/-- Raw clause substrings returned by `parseParamValue`; a JS
`undefined` clause is `none`. -/
structure ParsedParamValue where
  typeText : Option String
  paramName : Option String
  paramDesc : Option String
deriving Repr, DecidableEq

/-- The structured result of `parseParamFromValue`.  `nullable` maps JS
`true`/`false`/`null` to `some true`/`some false`/`none` (the JS
distinction between `null` and an absent field is unobservable in
non-throwing runs); `defaultRaw`, the best-effort `JSON.parse` of
`defaultValue`, is outside every claim and not modelled. -/
structure ParsedParam where
  nullable : Option Bool
  types : List String
  spread : Bool
  optional : Option Bool
  defaultValue : Option String
  name : Option String
  description : Option String
deriving Repr, DecidableEq

/-- The whitespace class `\s` of the source regexps (the common ASCII
subset). -/
def isWsChar (c : Char) : Bool :=
  c == ' ' || c == '\t' || c == '\n' || c == '\r'

/-- Character-level prefix test (the byte-position based
`String.startsWith` of the standard library does not reduce well inside
the kernel, so the JS string primitives are modelled on `List Char`). -/
def jsStartsWithChars : List Char → List Char → Bool
  | [], _ => true
  | _ :: _, [] => false
  | p :: ps, c :: cs => p == c && jsStartsWithChars ps cs

/-- JS `value.startsWith(pre)` / `value.charAt(0) === c` patterns. -/
def jsStartsWith (s pre : String) : Bool :=
  jsStartsWithChars pre.data s.data

/-- JS `value.endsWith(suf)` pattern (used for the single-char suffix
strips `replace(/[)]$/, '')` and `replace(/[\]]$/, '')`). -/
def jsEndsWith (s suf : String) : Bool :=
  jsStartsWithChars suf.data.reverse s.data.reverse

/-- JS `value.substr(n)`. -/
def jsDrop (s : String) (n : Nat) : String :=
  (s.data.drop n).asString

/-- Removal of the last `n` characters. -/
def jsDropRight (s : String) (n : Nat) : String :=
  (s.data.take (s.data.length - n)).asString

/-- JS `value.trim()` (ASCII whitespace). -/
def jsTrim (s : String) : String :=
  (((s.data.dropWhile isWsChar).reverse.dropWhile isWsChar).reverse).asString

/-- Split on a single-character separator, as JS `value.split(c)`. -/
def splitOnCharAux (sep : Char) : List Char → List Char → List (List Char)
  | [], acc => [acc.reverse]
  | c :: cs, acc =>
    if c == sep then acc.reverse :: splitOnCharAux sep cs []
    else splitOnCharAux sep cs (c :: acc)

/-- JS `value.split(sep)` for a one-character separator. -/
def jsSplitChar (s : String) (sep : Char) : List String :=
  (splitOnCharAux sep s.data []).map List.asString

/-- Scanner for the lazy type-clause regexp
`/^\{([^@]*?)\}(\s+|$)/`: after the opening brace, the shortest content
without `@` followed by a `}` that is itself followed by whitespace or
the end; a `}` with neither following stays part of the content. -/
def typeClauseScan (acc : List Char) : List Char → Option (List Char × List Char)
  | [] => none
  | c :: cs =>
    if c == '@' then none
    else if c == '\x7d' then
      match cs with
      | [] => some (acc.reverse, [])
      | d :: _ => if isWsChar d then some (acc.reverse, cs) else typeClauseScan (c :: acc) cs
    else typeClauseScan (c :: acc) cs

/-- `value.match(/^\{([^@]*?)\}(\s+|$)/)` plus the removal
`value.replace(reg, '')` (the greedy `\s+` takes the whole whitespace
run): the type text and the remaining value. -/
def matchTypeClause (value : String) : Option (String × String) :=
  match value.data with
  | '\x7b' :: rest =>
    match typeClauseScan [] rest with
    | some (content, tail) => some (content.asString, (tail.dropWhile isWsChar).asString)
    | none => none
  | _ => none

/-- The bracket-counting loop of the optional-name form `[p1=123]`:
accumulate chars, `[` and `]` adjust the counter, stop when it returns
to zero; an unbalanced value accumulates everything. -/
def bracketScan : List Char → Int → List Char → List Char
  | [], _, acc => acc.reverse
  | c :: cs, counter, acc =>
    let acc := c :: acc
    let counter := if c == '[' then counter + 1 else counter
    let counter := if c == ']' then counter - 1 else counter
    if counter == 0 then acc.reverse else bracketScan cs counter acc

/-- The description clause regexp `/^\-?\s*((:?.|\n)*)$/m`: the capture
is everything after one optional leading `-` and the following
whitespace run (the group's `(:?.|\n)*` spans the rest, newlines
included). -/
def descClause (value : String) : String :=
  let l := value.data
  let l := match l with
    | '-' :: rest => rest
    | _ => l
  (l.dropWhile isWsChar).asString

/-- Clause extraction of AbstractParamParser.parseParamValue, before
the final `param is invalid` validations. -/
def parseParamValueCore (value : String) (options : ParamOptions) : ParsedParamValue :=
  let value := jsTrim value
  let tv : Option String × String :=
    if options.type then
      match matchTypeClause value with
      | some (t, rest) => (some t, rest)
      | none => (some "*", value)
    else (none, value)
  let typeText := tv.1
  let nv : Option String × String :=
    if options.name then
      if jsStartsWith tv.2 "[" then
        let pn := (bracketScan tv.2.data 0 []).asString
        (some pn, jsTrim (jsDrop tv.2 pn.length))
      else
        match tv.2.data with
        | [] => (none, tv.2)
        | c :: _ =>
          if isWsChar c then (none, tv.2)
          else
            let tok := tv.2.data.takeWhile (fun ch => !isWsChar ch)
            (some tok.asString, ((tv.2.data.drop tok.length).dropWhile isWsChar).asString)
    else (none, tv.2)
  let paramName := nv.1
  let paramDesc := if options.desc then some (descClause nv.2) else none
  ⟨typeText, paramName, paramDesc⟩

/-- AbstractParamParser.parseParamValue: extract the requested clauses;
a requested clause that comes out `undefined` throws (only the name
clause can, via an empty remainder — the type clause falls back to `*`
and the description clause always matches). -/
def parseParamValue (value : String) (options : ParamOptions) : Except String ParsedParamValue :=
  let r := parseParamValueCore value options
  if options.type && r.typeText.isNone then Except.error "param is invalid"
  else if options.name && r.paramName.isNone then Except.error "param is invalid"
  else if options.desc && r.paramDesc.isNone then Except.error "param is invalid"
  else Except.ok r

/-- Scanner for `.*?c` inside the source regexps: a `c` is reachable
without crossing a newline (`.` does not match `\n`). -/
def scanFor (target : Char) : List Char → Bool
  | [] => false
  | c :: cs => if c == target then true else if c == '\n' then false else scanFor target cs

/-- After a `<`: some later `|` is reachable without a newline and is
itself followed, without a newline, by a `>` — the tail of the
generics-union regexp `/<.*?\|.*?>/`. -/
def gAfterLt : List Char → Bool
  | [] => false
  | c :: cs =>
    if c == '\n' then false
    else if c == '|' then scanFor '>' cs || gAfterLt cs
    else gAfterLt cs

/-- Outer scan of `/<.*?\|.*?>/`: try every `<`. -/
def gScanLt : List Char → Bool
  | [] => false
  | c :: cs => if c == '<' then gAfterLt cs || gScanLt cs else gScanLt cs

/-- `typeText.match(/<.*?\|.*?>/)` as a Bool. -/
def hasGenericPipe (s : String) : Bool :=
  gScanLt s.data

/-- Head test of `/^\.\.\.\(/` followed by the `.*?\)` scan. -/
def variadicScan : List Char → Bool
  | c1 :: c2 :: c3 :: c4 :: rest =>
    if c1 == '.' && c2 == '.' && c3 == '.' && c4 == '(' then scanFor ')' rest else false
  | _ => false

/-- `typeText.match(/^\.\.\.\(.*?\)/)` as a Bool: the text starts with
the variadic-paren opening `...(` and a `)` follows without a newline. -/
def hasVariadicClosed (s : String) : Bool :=
  variadicScan s.data

/-- `typeText.replace(/^[(]/, '').replace(/[)]$/, '')`. -/
def stripParens (t : String) : String :=
  let t := if jsStartsWith t "(" then jsDrop t 1 else t
  if jsEndsWith t ")" then jsDropRight t 1 else t

/-- `typeText.replace(/^[?!]/, '')`. -/
def stripNullableSigil (t : String) : String :=
  match t.data with
  | '?' :: r => r.asString
  | '!' :: r => r.asString
  | _ => t

/-- The record/union/generics/variadic decision chain of
`parseParamFromValue` assigning `result.types` from the sigil-stripped
type text (source lines 142-173): a leading `{` makes the whole text one
record token; a leading `(` strips the parens and splits on `|`;
otherwise a text containing `|` stays one opaque token when the
generics-union or variadic-paren regexp matches and is split on `|`
otherwise; a pipe-free text is a single type. -/
def typesAfterNullable (typeText : String) : List String :=
  if jsStartsWith typeText "\x7b" then [typeText]
  else if jsStartsWith typeText "(" then jsSplitChar (stripParens typeText) '|'
  else if typeText.data.contains '|' then
    if hasGenericPipe typeText then [typeText]
    else if hasVariadicClosed typeText then [typeText]
    else jsSplitChar typeText '|'
  else [typeText]

/-- `paramName.replace(/^[\[]/, '').replace(/[\]]$/, '')`. -/
def stripBrackets (t : String) : String :=
  let t := if jsStartsWith t "[" then jsDrop t 1 else t
  if jsEndsWith t "]" then jsDropRight t 1 else t

/-- AbstractParamParser.parseParamFromValue: refine the raw clauses into
a `ParsedParam` — a missing `typeText` throws the `TypeError` of the
`typeof options.typeText !== 'string'` validation, an empty type
alternative throws `Empty Type`.  (The `typeof` validations of
`paramName`/`paramDesc` always pass: the raw clauses are strings.) -/
def parseParamFromValue (opts : ParsedParamValue) : Except String ParsedParam :=
  match opts.typeText with
  | none => Except.error "TypeError: options.typeText is not a string"
  | some typeText0 =>
    let nts : Option Bool × List String × Bool :=
      if typeText0 != "" then
        let nullable := if jsStartsWith typeText0 "?" then some true
          else if jsStartsWith typeText0 "!" then some false
          else (none : Option Bool)
        let typeText := stripNullableSigil typeText0
        (nullable, typesAfterNullable typeText, jsStartsWith typeText "...")
      else (none, [""], false)
    if nts.2.1.any (fun t => t == "") then Except.error "Empty Type found"
    else
      let ond : Option Bool × Option String × Option String :=
        match opts.paramName with
        | some pn0 =>
          if pn0 != "" then
            let opn : Option Bool × String :=
              if jsStartsWith pn0 "[" then (some true, stripBrackets pn0)
              else (some false, pn0)
            let pair := jsSplitChar opn.2 '='
            if pair.length == 2 then
              (opn.1, some (jsTrim (pair.getD 0 "")), some (pair.getD 1 ""))
            else (opn.1, some (jsTrim (pair.getD 0 "")), none)
          else (none, none, none)
        | none => (none, none, none)
      Except.ok ⟨nts.1, nts.2.1, nts.2.2, ond.1, ond.2.2, ond.2.1, opts.paramDesc⟩

/-- AbstractParamParser.parseParam:
`parseParamFromValue(parseParamValue(value, options))`. -/
def parseParam (value : String) (options : ParamOptions) : Except String ParsedParam :=
  (parseParamValue value options).bind parseParamFromValue

end ParamParser

section ClaimC7

/-- Spec-side reading of the generics-union guard: some pipe of the text
sits inside a generic-bracket group — a `<` before it and a `>` after
it, with no newline in between (`.` in the source regexp does not cross
lines). -/
def GenericPipeProp (s : String) : Prop :=
  ∃ a b c d, s.data = a ++ '<' :: (b ++ '|' :: (c ++ '>' :: d)) ∧ '\n' ∉ b ∧ '\n' ∉ c

/-- Spec-side reading of the variadic guard as the code implements it:
the text begins with the variadic-paren opening `...(` and a closing `)`
appears later with no newline before it. -/
def VariadicClosedProp (s : String) : Prop :=
  ∃ l1 l2, s.data = '.' :: '.' :: '.' :: '(' :: (l1 ++ ')' :: l2) ∧ '\n' ∉ l1

lemma scanFor_iff (t : Char) (ht : t ≠ '\n') (l : List Char) :
    scanFor t l = true ↔ ∃ l1 l2, l = l1 ++ t :: l2 ∧ '\n' ∉ l1 := by
  induction l with
  | nil =>
    constructor
    · intro h; cases h
    · rintro ⟨l1, l2, heq, -⟩
      cases l1 <;> simp at heq
  | cons c cs ih =>
    by_cases hct : c = t
    · subst hct
      constructor
      · intro _
        exact ⟨[], cs, rfl, by simp⟩
      · intro _
        simp [scanFor]
    · by_cases hcn : c = '\n'
      · subst hcn
        have hlhs : scanFor t ('\n' :: cs) = false := by
          simp [scanFor, Ne.symm ht]
        rw [hlhs]
        constructor
        · intro h; cases h
        · rintro ⟨l1, l2, heq, hn⟩
          rcases l1 with _ | ⟨x, l1p⟩
          · rw [List.nil_append] at heq
            injection heq with h1 h2
            exact (ht h1.symm).elim
          · rw [List.cons_append] at heq
            injection heq with h1 h2
            subst h1
            exact (hn (List.mem_cons_self _ _)).elim
      · have hlhs : scanFor t (c :: cs) = scanFor t cs := by
          simp [scanFor, hct, hcn]
        rw [hlhs, ih]
        constructor
        · rintro ⟨l1, l2, heq, hn⟩
          refine ⟨c :: l1, l2, by rw [heq, List.cons_append], ?_⟩
          intro hm
          rcases List.mem_cons.mp hm with h | h
          · exact hcn h.symm
          · exact hn h
        · rintro ⟨l1, l2, heq, hn⟩
          rcases l1 with _ | ⟨x, l1p⟩
          · rw [List.nil_append] at heq
            injection heq with h1 h2
            exact absurd h1 hct
          · rw [List.cons_append] at heq
            injection heq with h1 h2
            subst h1
            exact ⟨l1p, l2, h2, fun hm => hn (List.mem_cons_of_mem _ hm)⟩

end ClaimC7
section ClaimC7b

lemma gAfterLt_iff (l : List Char) :
    gAfterLt l = true ↔
      ∃ l1 l2, l = l1 ++ '|' :: l2 ∧ '\n' ∉ l1 ∧ scanFor '>' l2 = true := by
  induction l with
  | nil =>
    constructor
    · intro h; cases h
    · rintro ⟨l1, l2, heq, -, -⟩
      cases l1 <;> simp at heq
  | cons c cs ih =>
    by_cases hcn : c = '\n'
    · subst hcn
      have hlhs : gAfterLt ('\n' :: cs) = false := by
        simp [gAfterLt]
      rw [hlhs]
      constructor
      · intro h; cases h
      · rintro ⟨l1, l2, heq, hn, -⟩
        rcases l1 with _ | ⟨x, l1p⟩
        · rw [List.nil_append] at heq
          injection heq with h1 h2
          exact absurd h1 (by decide)
        · rw [List.cons_append] at heq
          injection heq with h1 h2
          subst h1
          exact (hn (List.mem_cons_self _ _)).elim
    · by_cases hcp : c = '|'
      · subst hcp
        have hlhs : gAfterLt ('|' :: cs) = (scanFor '>' cs || gAfterLt cs) := by
          simp [gAfterLt]
        rw [hlhs]
        constructor
        · intro h
          rcases Bool.or_eq_true_iff.mp h with h | h
          · exact ⟨[], cs, rfl, by simp, h⟩
          · rcases ih.mp h with ⟨l1, l2, heq, hn, hs⟩
            refine ⟨'|' :: l1, l2, by rw [heq, List.cons_append], ?_, hs⟩
            intro hm
            rcases List.mem_cons.mp hm with h' | h'
            · exact absurd h' (by decide)
            · exact hn h'
        · rintro ⟨l1, l2, heq, hn, hs⟩
          rcases l1 with _ | ⟨x, l1p⟩
          · rw [List.nil_append] at heq
            injection heq with h1 h2
            subst h2
            exact Bool.or_eq_true_iff.mpr (Or.inl hs)
          · rw [List.cons_append] at heq
            injection heq with h1 h2
            refine Bool.or_eq_true_iff.mpr (Or.inr (ih.mpr ⟨l1p, l2, h2, ?_, hs⟩))
            exact fun hm => hn (List.mem_cons_of_mem _ hm)
      · have hlhs : gAfterLt (c :: cs) = gAfterLt cs := by
          simp [gAfterLt, hcn, hcp]
        rw [hlhs, ih]
        constructor
        · rintro ⟨l1, l2, heq, hn, hs⟩
          refine ⟨c :: l1, l2, by rw [heq, List.cons_append], ?_, hs⟩
          intro hm
          rcases List.mem_cons.mp hm with h' | h'
          · exact hcn h'.symm
          · exact hn h'
        · rintro ⟨l1, l2, heq, hn, hs⟩
          rcases l1 with _ | ⟨x, l1p⟩
          · rw [List.nil_append] at heq
            injection heq with h1 h2
            exact absurd h1 hcp
          · rw [List.cons_append] at heq
            injection heq with h1 h2
            subst h1
            exact ⟨l1p, l2, h2, fun hm => hn (List.mem_cons_of_mem _ hm), hs⟩

lemma gScanLt_iff (l : List Char) :
    gScanLt l = true ↔ ∃ l1 l2, l = l1 ++ '<' :: l2 ∧ gAfterLt l2 = true := by
  induction l with
  | nil =>
    constructor
    · intro h; cases h
    · rintro ⟨l1, l2, heq, -⟩
      cases l1 <;> simp at heq
  | cons c cs ih =>
    by_cases hcl : c = '<'
    · subst hcl
      have hlhs : gScanLt ('<' :: cs) = (gAfterLt cs || gScanLt cs) := by
        simp [gScanLt]
      rw [hlhs]
      constructor
      · intro h
        rcases Bool.or_eq_true_iff.mp h with h | h
        · exact ⟨[], cs, rfl, h⟩
        · rcases ih.mp h with ⟨l1, l2, heq, hg⟩
          exact ⟨'<' :: l1, l2, by rw [heq, List.cons_append], hg⟩
      · rintro ⟨l1, l2, heq, hg⟩
        rcases l1 with _ | ⟨x, l1p⟩
        · rw [List.nil_append] at heq
          injection heq with h1 h2
          subst h2
          exact Bool.or_eq_true_iff.mpr (Or.inl hg)
        · rw [List.cons_append] at heq
          injection heq with h1 h2
          exact Bool.or_eq_true_iff.mpr (Or.inr (ih.mpr ⟨l1p, l2, h2, hg⟩))
    · have hlhs : gScanLt (c :: cs) = gScanLt cs := by
        simp [gScanLt, hcl]
      rw [hlhs, ih]
      constructor
      · rintro ⟨l1, l2, heq, hg⟩
        exact ⟨c :: l1, l2, by rw [heq, List.cons_append], hg⟩
      · rintro ⟨l1, l2, heq, hg⟩
        rcases l1 with _ | ⟨x, l1p⟩
        · rw [List.nil_append] at heq
          injection heq with h1 h2
          exact absurd h1 hcl
        · rw [List.cons_append] at heq
          injection heq with h1 h2
          exact ⟨l1p, l2, h2, hg⟩

lemma hasGenericPipe_iff (s : String) :
    hasGenericPipe s = true ↔ GenericPipeProp s := by
  unfold hasGenericPipe GenericPipeProp
  rw [gScanLt_iff]
  constructor
  · rintro ⟨l1, l2, heq, hg⟩
    rcases (gAfterLt_iff l2).mp hg with ⟨m1, m2, heq2, hn1, hs⟩
    rcases (scanFor_iff '>' (by decide) m2).mp hs with ⟨k1, k2, heq3, hn2⟩
    exact ⟨l1, m1, k1, k2, by rw [heq, heq2, heq3], hn1, hn2⟩
  · rintro ⟨a, b, c, d, heq, hnb, hnc⟩
    refine ⟨a, b ++ '|' :: (c ++ '>' :: d), heq, ?_⟩
    refine (gAfterLt_iff _).mpr ⟨b, c ++ '>' :: d, rfl, hnb, ?_⟩
    exact (scanFor_iff '>' (by decide) _).mpr ⟨c, d, rfl, hnc⟩

lemma variadicScan_iff (l : List Char) :
    variadicScan l = true ↔
      ∃ l1 l2, l = '.' :: '.' :: '.' :: '(' :: (l1 ++ ')' :: l2) ∧ '\n' ∉ l1 := by
  match l with
  | [] =>
    constructor
    · intro h; cases h
    · rintro ⟨l1, l2, heq, -⟩; cases heq
  | [c1] =>
    constructor
    · intro h; cases h
    · rintro ⟨l1, l2, heq, -⟩; cases heq
  | [c1, c2] =>
    constructor
    · intro h; cases h
    · rintro ⟨l1, l2, heq, -⟩; cases heq
  | [c1, c2, c3] =>
    constructor
    · intro h; cases h
    · rintro ⟨l1, l2, heq, -⟩; cases heq
  | c1 :: c2 :: c3 :: c4 :: rest =>
    show (if (c1 == '.' && c2 == '.' && c3 == '.' && c4 == '(') = true
          then scanFor ')' rest else false) = true ↔ _
    by_cases hh : (c1 == '.' && c2 == '.' && c3 == '.' && c4 == '(') = true
    · rw [if_pos hh]
      simp only [Bool.and_eq_true, beq_iff_eq] at hh
      obtain ⟨⟨⟨h1, h2⟩, h3⟩, h4⟩ := hh
      subst h1; subst h2; subst h3; subst h4
      rw [scanFor_iff ')' (by decide)]
      constructor
      · rintro ⟨l1, l2, heq, hn⟩
        exact ⟨l1, l2, by rw [heq], hn⟩
      · rintro ⟨l1, l2, heq, hn⟩
        injection heq with _ heq
        injection heq with _ heq
        injection heq with _ heq
        injection heq with _ heq
        exact ⟨l1, l2, heq, hn⟩
    · rw [if_neg hh]
      constructor
      · intro h; cases h
      · rintro ⟨l1, l2, heq, -⟩
        injection heq with h1 heq
        injection heq with h2 heq
        injection heq with h3 heq
        injection heq with h4 heq
        exact (hh (by simp [h1, h2, h3, h4])).elim

lemma hasVariadicClosed_iff (s : String) :
    hasVariadicClosed s = true ↔ VariadicClosedProp s := by
  unfold hasVariadicClosed VariadicClosedProp
  exact variadicScan_iff s.data

end ClaimC7b

section ClaimC7c

/-- Counterexample to claim C7 as stated: the type text `...(a|b` begins
with the variadic-paren opening `...(`, yet the parser does not return
it as a single opaque token — the variadic regexp also requires a later
`)`, so the text is split on `|`. -/
theorem claim_C7_counterexample :
    jsStartsWith "...(a|b" "...(" = true ∧
    typesAfterNullable "...(a|b" = ["...(a", "b"] ∧
    typesAfterNullable "...(a|b" ≠ ["...(a|b"] := by
  refine ⟨rfl, by decide, by decide⟩

/-- Claim C7 as amended: for every type text containing `|` that is
neither a leading-brace record type nor a parenthesized union, the text
is returned as a single opaque token exactly when a pipe sits inside a
generic-bracket group `<...|...>` (no newline intervening) or the text
begins with the variadic-paren opening `...(` with a closing `)`
following (without a newline); otherwise it is split on `|`.
Consequently `"{string|number} value"` parses to
types = ['string','number'], and `"{(string|number)} value"` parses to
the same list via the paren form. -/
theorem claim_C7_type_split_amended :
    (∀ s : String, s.data.contains '|' = true → jsStartsWith s "\x7b" = false →
      jsStartsWith s "(" = false →
      ((GenericPipeProp s ∨ VariadicClosedProp s → typesAfterNullable s = [s]) ∧
       (¬GenericPipeProp s → ¬VariadicClosedProp s →
         typesAfterNullable s = jsSplitChar s '|'))) ∧
    (parseParam "\x7bstring|number\x7d value" ⟨true, true, true⟩).map (fun p => p.types) =
      Except.ok ["string", "number"] ∧
    (parseParam "\x7b(string|number)\x7d value" ⟨true, true, true⟩).map (fun p => p.types) =
      Except.ok ["string", "number"] := by
  refine ⟨?_, rfl, rfl⟩
  intro s hpipe hbrace hparen
  have hred : typesAfterNullable s =
      (if hasGenericPipe s = true then [s]
       else if hasVariadicClosed s = true then [s] else jsSplitChar s '|') := by
    unfold typesAfterNullable
    rw [hbrace, hparen, hpipe]
    simp
  constructor
  · intro h
    rcases h with h | h
    · rw [hred, if_pos ((hasGenericPipe_iff s).mpr h)]
    · by_cases hg : hasGenericPipe s = true
      · rw [hred, if_pos hg]
      · rw [hred, if_neg hg, if_pos ((hasVariadicClosed_iff s).mpr h)]
  · intro hng hnv
    have hg : ¬hasGenericPipe s = true := fun hb => hng ((hasGenericPipe_iff s).mp hb)
    have hv : ¬hasVariadicClosed s = true := fun hb => hnv ((hasVariadicClosed_iff s).mp hb)
    rw [hred, if_neg hg, if_neg hv]

/-- Witness for the amended claim C7 at the plain union `a|b`: no pipe
sits in a generic group, the text does not open a variadic paren, and
the parser splits it into its two alternatives. -/
theorem claim_C7_type_split_witness : typesAfterNullable "a|b" = ["a", "b"] := by
  have h := (claim_C7_type_split_amended.1 "a|b" rfl rfl rfl).2
  have hg : ¬GenericPipeProp "a|b" := fun hp =>
    absurd ((hasGenericPipe_iff "a|b").mpr hp) (by decide)
  have hv : ¬VariadicClosedProp "a|b" := fun hp =>
    absurd ((hasVariadicClosed_iff "a|b").mpr hp) (by decide)
  rw [h hg hv]
  decide

end ClaimC7c

section ClaimC8

lemma parseParamValueCore_type_false (value : String) (n d : Bool) :
    (parseParamValueCore value ⟨false, n, d⟩).typeText = none := rfl

lemma parseParamValue_type_false {value : String} {n d : Bool} {r : ParsedParamValue}
    (h : parseParamValue value ⟨false, n, d⟩ = Except.ok r) : r.typeText = none := by
  unfold parseParamValue at h
  simp only [Bool.false_and, Bool.false_eq_true, if_false] at h
  split at h
  · cases h
  · split at h
    · cases h
    · rcases Except.ok.inj h with rfl
      exact parseParamValueCore_type_false value n d

/-- Counterexample to claim C8 as stated: on the well-formed annotation
value `x - the x value`, clause extraction succeeds with the
name+description selector, but the combined `parseParam` entry point
throws — its refinement step rejects the absent type clause. -/
theorem claim_C8_counterexample :
    (parseParamValue "x - the x value" ⟨false, true, true⟩).isOk = true ∧
    (parseParam "x - the x value" ⟨false, true, true⟩).isOk = false :=
  ⟨rfl, rfl⟩

/-- Claim C8 as amended: the three clauses are independently requestable
only at the clause-extraction level (`parseParamValue`) — on the sample
value every selector combination extracts successfully — while the
combined `parseParam` entry point requires the type clause: every call
not requesting it throws (for every value), and every call requesting it
succeeds whenever extraction succeeds and the extracted type text is
nonempty with no empty `|`-alternative. -/
theorem claim_C8_selector_amended :
    (∀ (value : String) (n d : Bool), (parseParam value ⟨false, n, d⟩).isOk = false) ∧
    (∀ (value : String) (opts : ParamOptions) (r : ParsedParamValue) (t : String),
      opts.type = true → parseParamValue value opts = Except.ok r →
      r.typeText = some t → (t != "") = true →
      (typesAfterNullable (stripNullableSigil t)).all (fun a => a != "") = true →
      (parseParam value opts).isOk = true) ∧
    (∀ t n d : Bool, (parseParamValue "x - the x value" ⟨t, n, d⟩).isOk = true) := by
  refine ⟨?_, ?_, by decide⟩
  · intro value n d
    unfold parseParam
    cases hpv : parseParamValue value ⟨false, n, d⟩ with
    | error e => rfl
    | ok r =>
      have hT := parseParamValue_type_false hpv
      show (parseParamFromValue r).isOk = false
      unfold parseParamFromValue
      rw [hT]
      rfl
  · intro value opts r t _ hpv hT hne hall
    unfold parseParam
    rw [hpv]
    show (parseParamFromValue r).isOk = true
    rcases r with ⟨rt, rn, rd⟩
    simp only at hT
    subst hT
    have hany : ((typesAfterNullable (stripNullableSigil t)).any (fun x => x == "")) = false := by
      rw [List.any_eq_false]
      intro x hx
      have := List.all_eq_true.mp hall x hx
      simpa using this
    unfold parseParamFromValue
    dsimp only
    rw [if_pos hne]
    dsimp only
    rw [if_neg (by rw [hany]; exact Bool.false_ne_true)]
    rfl

/-- Witness for the amended claim C8: with the type clause requested,
the sample annotation parses successfully end to end. -/
theorem claim_C8_selector_witness :
    (parseParam "\x7bnumber\x7d x - d" ⟨true, true, true⟩).isOk = true :=
  claim_C8_selector_amended.2.1 "\x7bnumber\x7d x - d" ⟨true, true, true⟩
    ⟨some "number", some "x", some "d"⟩ "number" rfl rfl rfl (by decide) (by decide)

end ClaimC8

section CommentParser

/-- One parsed tag: `{ tagName, tagValue }`. -/
structure Tag where
  tagName : String
  tagValue : String
deriving Repr, DecidableEq

/-- `comment.replace(/\r\n/gm, '\n')`. -/
def replaceCRLF : List Char → List Char
  | '\r' :: '\n' :: rest => '\n' :: replaceCRLF rest
  | c :: rest => c :: replaceCRLF rest
  | [] => []

/-- The `[\t ]` class of the tokenizer regexps. -/
def isTabSpace (c : Char) : Bool := c == '\t' || c == ' '

/-- Split into lines at `\n` (the `m`-flag line structure). -/
def splitLines (l : List Char) : List (List Char) := splitOnCharAux '\n' l []

/-- Rejoin lines with `\n`. -/
def joinLines : List (List Char) → List Char
  | [] => []
  | [x] => x
  | x :: xs => x ++ '\n' :: joinLines xs

/-- `replace(/^\*[\t ]?/, '')` applied to one string or line: strip one
leading `*` and at most one following tab/space. -/
def stripLeadStar : List Char → List Char
  | '*' :: c :: rest => if isTabSpace c then rest else c :: rest
  | ['*'] => []
  | l => l

/-- `replace(/[\t ]$/, '')`: remove one trailing tab/space of the whole
string. -/
def stripOneTrailingSpace (l : List Char) : List Char :=
  match l.reverse with
  | c :: rest => if isTabSpace c then rest.reverse else l
  | [] => l

/-- `if (comment.charAt(0) !== '@') comment = '@desc ' + comment`. -/
def descInsert (l : List Char) : List Char :=
  match l with
  | '@' :: _ => l
  | _ => "@desc ".data ++ l

/-- `replace(/[\t ]*$/, '')`: remove the whole trailing tab/space run. -/
def stripTrailingTabsSpaces (l : List Char) : List Char :=
  (l.reverse.dropWhile isTabSpace).reverse

/-- The `\w` class: ASCII word characters. -/
def isWordChar (c : Char) : Bool := c.isAlpha || c.isDigit || c == '_'

/-- `replace(/^[\t ]*(@\w+)$/gm, '$1 \\TRUE')` for one line: a bare tag
line gets the `\TRUE` sentinel appended (and its leading whitespace
dropped, since only `$1` is kept). -/
def trueInsertLine (l : List Char) : List Char :=
  match l.dropWhile isTabSpace with
  | '@' :: t =>
    let word := t.takeWhile isWordChar
    if word.isEmpty then l
    else if (t.drop word.length).isEmpty then '@' :: (word ++ (' ' :: '\\' :: 'T' :: 'R' :: 'U' :: 'E' :: []))
    else l
  | _ => l

/-- `replace(/^[\t ]*(@\w+)[\t ](.*)/gm, '\\Z$1\\Z$2')` for one line:
a tag line with a value becomes `\Z@tag\Zvalue`. -/
def sepInsertLine (l : List Char) : List Char :=
  match l.dropWhile isTabSpace with
  | '@' :: t =>
    let word := t.takeWhile isWordChar
    if word.isEmpty then l
    else
      match t.drop word.length with
      | c :: r2 => if isTabSpace c then '\\' :: 'Z' :: '@' :: (word ++ ('\\' :: 'Z' :: r2)) else l
      | [] => l
  | _ => l

/-- `comment.split('\\Z')`: split on the literal two-character
separator `\Z`. -/
def splitOnZAux : List Char → List Char → List (List Char)
  | '\\' :: 'Z' :: rest, acc => acc.reverse :: splitOnZAux rest []
  | c :: rest, acc => splitOnZAux rest (c :: acc)
  | [], acc => [acc.reverse]

def splitOnZ (l : List Char) : List (List Char) := splitOnZAux l []

/-- `tagValue.replace('\\TRUE', '')`: remove the first occurrence of
the sentinel. -/
def removeFirstTrue : List Char → List Char
  | '\\' :: 'T' :: 'R' :: 'U' :: 'E' :: rest => rest
  | c :: rest => c :: removeFirstTrue rest
  | [] => []

/-- `replace(/^\n/, '')`. -/
def dropOneLeadingNewline : List Char → List Char
  | '\n' :: rest => rest
  | l => l

/-- `replace(/\n*$/, '')`. -/
def stripTrailingNewlines (l : List Char) : List Char :=
  (l.reverse.dropWhile (fun c => c == '\n')).reverse

/-- The sentinel/newline cleanup applied to each extracted tag value. -/
def cleanTagValue (l : List Char) : List Char :=
  stripTrailingNewlines (dropOneLeadingNewline (removeFirstTrue l))

/-- `line.charAt(0) === '@'`. -/
def isTagLine (l : List Char) : Bool :=
  match l with
  | '@' :: _ => true
  | _ => false

/-- The extraction loop over the `\Z`-split segments: a segment starting
with `@` is a tag name; its value is the following segment unless that
one also starts with `@` (then the value is empty and the segment is
revisited).  When a tag-name segment is the last one, the source reads
`lines[i + 1].charAt(0)` with `lines[i + 1]` `undefined` and throws a
TypeError, modelled as `Except.error ()`.  The loop consumes at least
one segment per iteration, so `tagLoop` feeds it the segment count as
structural fuel; the fuel-zero branch is unreachable. -/
def tagLoopF : Nat → List (List Char) → Except Unit (List Tag)
  | 0, _ => Except.ok []
  | _ + 1, [] => Except.ok []
  | f + 1, line :: rest =>
    if isTagLine line then
      match rest with
      | [] => Except.error ()
      | next :: rest2 =>
        if isTagLine next then
          (tagLoopF f rest).map
            (fun tags => ⟨line.asString, (cleanTagValue []).asString⟩ :: tags)
        else
          (tagLoopF f rest2).map
            (fun tags => ⟨line.asString, (cleanTagValue next).asString⟩ :: tags)
    else tagLoopF f rest

def tagLoop (l : List (List Char)) : Except Unit (List Tag) :=
  tagLoopF l.length l

/-- AbstractCommentParser.parse: the full normalization pipeline in
source order, over the comment value the AST-specific
`getCommentValue` returned (`none` models `undefined`, returning no
tags). -/
def commentParse (commentValue : Option String) : Except Unit (List Tag) :=
  match commentValue with
  | none => Except.ok []
  | some comment =>
    let l := comment.data
    let l := replaceCRLF l
    let l := joinLines ((splitLines l).map (fun ln => ln.dropWhile isTabSpace))
    let l := stripLeadStar l
    let l := stripOneTrailingSpace l
    let l := joinLines ((splitLines l).map stripLeadStar)
    let l := descInsert l
    let l := stripTrailingTabsSpaces l
    let l := joinLines ((splitLines l).map trueInsertLine)
    let l := joinLines ((splitLines l).map sepInsertLine)
    tagLoop (splitOnZ l)

end CommentParser

section ClaimC9

deriving instance DecidableEq for Except

/-- Claim C9 (tokenizer totality), evaluated at the failing input: an
absent comment yields `[]`, bare tags tokenize best-effort with empty
sentinel-stripped values, but the comment body `@a @b` — a line whose
tag value itself begins with `@` and ends the input — makes `parse`
throw: its final `\Z`-segment starts with `@`, so the loop reads
`lines[i + 1].charAt(0)` on `undefined`.  The claim's "never throws" is
the documented intent (the loop's `charAt` guard exists precisely for
adjacent tags) and the missing end-of-array check is the slip. -/
theorem claim_C9_tokenizer_crash :
    commentParse none = Except.ok [] ∧
    commentParse (some "@interface\n@abstract") =
      Except.ok [⟨"@interface", ""⟩, ⟨"@abstract", ""⟩] ∧
    commentParse (some "@a @b") = Except.error () :=
  ⟨rfl, by decide, by decide⟩

end ClaimC9

namespace DocBase

/-- DocBase._findAll: the comment tags whose name is in `names`
(`null` — here `none` — when there are none). -/
def _findAll (names : List String) (commentTags : List Tag) : Option (List Tag) :=
  let results := commentTags.filter (fun t => names.contains t.tagName)
  if results.isEmpty then none else some results

/-- DocBase._find: the last matching tag
(`results[results.length - 1]`). -/
def _find (names : List String) (commentTags : List Tag) : Option Tag :=
  match _findAll names commentTags with
  | none => none
  | some results => results.getLast?

/-- The tag names `_$access` feeds to `_find`. -/
def accessNames : List String := ["@access", "@public", "@private", "@protected"]

/-- The `switch (tag.tagName)` of `_$access` (the `default` branch
throws `unexpected token`, unreachable for tags `_find` returns from
`accessNames`; modelled as `none`). -/
def accessValueOfTag (tag : Tag) : Option String :=
  if tag.tagName == "@access" then some tag.tagValue
  else if tag.tagName == "@public" then some "public"
  else if tag.tagName == "@protected" then some "protected"
  else if tag.tagName == "@private" then some "private"
  else none

/-- DocBase._$access: the access value decided from the comment's tag
list (`none` models the explicit `null` of the tagless case). -/
def accessOf (commentTags : List Tag) : Option String :=
  match _find accessNames commentTags with
  | none => none
  | some tag => accessValueOfTag tag

end DocBase


section ClaimC10

lemma find_eq_getLast (names : List String) (tags : List Tag) :
    DocBase._find names tags =
      (tags.filter (fun t => names.contains t.tagName)).getLast? := by
  unfold DocBase._find DocBase._findAll
  by_cases h : (tags.filter (fun t => names.contains t.tagName)).isEmpty = true
  · simp only [h, if_true]
    rw [List.isEmpty_iff.mp h]
    rfl
  · simp only [h, if_false]
    rfl

/-- Claim C10: single-tag lookup always returns the last matching tag of
the comment's ordered tag list — `_find` yields `some t` exactly when `t`
is the final tag whose name is requested (and `none` exactly when no tag
matches) — so a repeated single-valued tag resolves to the value of the
last occurrence in block order, as `_$access` does for
`@access`/`@public`/`@protected`/`@private`. -/
theorem claim_C10_last_tag_wins :
    (∀ (names : List String) (pre post : List Tag) (t : Tag),
      names.contains t.tagName = true →
      (∀ u ∈ post, names.contains u.tagName = false) →
      DocBase._find names (pre ++ t :: post) = some t) ∧
    (∀ (names : List String) (tags : List Tag),
      DocBase._find names tags = none ↔
        ∀ u ∈ tags, names.contains u.tagName = false) ∧
    (∀ (pre post : List Tag) (t : Tag),
      DocBase.accessNames.contains t.tagName = true →
      (∀ u ∈ post, DocBase.accessNames.contains u.tagName = false) →
      DocBase.accessOf (pre ++ t :: post) = DocBase.accessValueOfTag t) := by
  have h1 : ∀ (names : List String) (pre post : List Tag) (t : Tag),
      names.contains t.tagName = true →
      (∀ u ∈ post, names.contains u.tagName = false) →
      DocBase._find names (pre ++ t :: post) = some t := by
    intro names pre post t ht hpost
    rw [find_eq_getLast]
    have hpostnil : post.filter (fun u => names.contains u.tagName) = [] :=
      List.filter_eq_nil_iff.mpr
        (by intro u hu; simp only [hpost u hu]; exact Bool.false_ne_true)
    have hfp : (pre ++ t :: post).filter (fun u => names.contains u.tagName) =
        pre.filter (fun u => names.contains u.tagName) ++ [t] := by
      rw [List.filter_append]
      simp only [List.filter_cons, ht, hpostnil]
      rfl
    rw [hfp]
    exact List.getLast?_concat _
  refine ⟨h1, ?_, ?_⟩
  · intro names tags
    rw [find_eq_getLast, List.getLast?_eq_none_iff, List.filter_eq_nil_iff]
    constructor
    · intro h u hu
      simpa using h u hu
    · intro h u hu
      simp only [h u hu]
      exact Bool.false_ne_true
  · intro pre post t ht hpost
    unfold DocBase.accessOf
    rw [h1 DocBase.accessNames pre post t ht hpost]

def c10Tags : List Tag := [⟨"@public", ""⟩, ⟨"@private", ""⟩]

/-- Witness for claim C10: with both `@public` and `@private` present,
the lookup returns the later `@private` tag and the access value is
`private`. -/
theorem claim_C10_last_tag_wins_witness :
    DocBase._find DocBase.accessNames c10Tags = some ⟨"@private", ""⟩ ∧
    DocBase.accessOf c10Tags = some "private" := by
  constructor
  · exact claim_C10_last_tag_wins.1 DocBase.accessNames [⟨"@public", ""⟩] []
      ⟨"@private", ""⟩ (by decide) (by intro u hu; cases hu)
  · have h := claim_C10_last_tag_wins.2.2 [⟨"@public", ""⟩] [] ⟨"@private", ""⟩
      (by decide) (by intro u hu; cases hu)
    exact h

end ClaimC10
